import Mathlib

/-! The command line of the file manager, `src/filemanager/command.c`.

A shallow embedding of `examine_cd` and `do_cd_command`.

A C string is modelled by the list of its characters before the terminating
NUL; the end of the list is the terminator.  A pointer into a string is the
list of the characters from the pointer on.
-/

namespace Command

/-- The terminating byte of a C string. -/
def NUL : Char := Char.ofNat 0

/-- The path separator `PATH_SEP` of `lib/global.h`. -/
def PATH_SEP : Char := '/'

/-- The string `PATH_SEP_STR`. -/
def PATH_SEP_STR : List Char := [PATH_SEP]

/-- The byte `s[i]` of a C string: a character of the string, or the
terminating NUL at `i = strlen s`. -/
def charAt (s : List Char) (i : Nat) : Char := s.getD i NUL

/-- The function `strchr (p, c)` for `c` other than NUL: the offset of the
first `c` in `p`, and `none` for the null pointer. -/
def strchr : List Char → Char → Option Nat
  | [], _ => none
  | x :: xs, c => if x = c then some 0 else (strchr xs c).map (· + 1)

/-! ## Variable expansion, `examine_cd` lines 101-143 -/

/-- The variables of the expansion loop. `p` is the unread input, `out` holds
the characters written so far (`r - q` is its length). `lookups` and
`skipped` are ghost fields: the names passed to `getenv`, in order, and the
number of values that were found and not copied for lack of room. -/
structure ScanState where
  p : List Char
  out : List Char
  lookups : List (List Char)
  skipped : Nat
deriving DecidableEq, Repr

/-- The offset of `s` from `p` in lines 108-118: the first `}` when the
reference is braced and has one, else the first `PATH_SEP`, else the end. -/
def refEnd (braced : Bool) (p : List Char) : Nat :=
  let s := if braced then strchr p '}' else none
  let s := if s = none then strchr p PATH_SEP else s
  match s with
  | none => p.length
  | some k => k

/-- The body of the `for` loop, lines 103-141, run when the guard holds. -/
def scanStep (maxlen : Nat) (getenv : List Char → Option (List Char))
    (st : ScanState) : ScanState :=
  match st.p with
  | [] => st
  | c :: rest =>
    if c ≠ '$' ∨ (charAt st.p 1 = '[' ∨ charAt st.p 1 = '(') then
      { st with p := rest, out := st.out ++ [c] }
    else
      let braced : Bool := charAt rest 0 = '{'
      let p1 := if braced then rest.drop 1 else rest
      let k := refEnd braced p1
      let name := p1.take k
      match getenv name with
      | none =>
        let prev := if braced then '{' else '$'
        { st with
          p := p1
          out := st.out ++ ['$'] ++ (if prev ≠ '$' then ['{'] else [])
          lookups := st.lookups ++ [name] }
      | some t =>
        let fits : Bool := st.out.length + t.length < maxlen
        { p := if charAt p1 k = '}' then p1.drop (k + 1) else p1.drop k
          out := if fits then st.out ++ t else st.out
          lookups := st.lookups ++ [name]
          skipped := if fits then st.skipped else st.skipped + 1 }

/-- The guard of the `for` loop, line 101: `*p && r < q + MC_MAXPATHLEN`. -/
def scanGuard (maxlen : Nat) (st : ScanState) : Bool :=
  st.p ≠ [] ∧ st.out.length < maxlen

/-- The `for` loop with at most `fuel` iterations; `none` when the guard still
holds after them. -/
def scanLoop (maxlen : Nat) (getenv : List Char → Option (List Char)) :
    Nat → ScanState → Option ScanState
  | 0, st => if scanGuard maxlen st then none else some st
  | fuel + 1, st =>
    if scanGuard maxlen st then scanLoop maxlen getenv fuel (scanStep maxlen getenv st)
    else some st

/-- The state before the first iteration: `p = path_tilde, r = q`. -/
def scanInit (input : List Char) : ScanState :=
  { p := input, out := [], lookups := [], skipped := 0 }

/-- The whole loop on `input`, one unit of fuel for each input character. -/
def scanRun (maxlen : Nat) (getenv : List Char → Option (List Char))
    (input : List Char) : Option ScanState :=
  scanLoop maxlen getenv input.length (scanInit input)

/-- The variable-substitution pass: the contents of `q` after line 143. -/
def varsubst (maxlen : Nat) (getenv : List Char → Option (List Char))
    (input : List Char) : Option (List Char) :=
  (scanRun maxlen getenv input).map (·.out)

/-- The names passed to `getenv` by the whole loop on `input`, in order. -/
def varsubstLookups (maxlen : Nat) (getenv : List Char → Option (List Char))
    (input : List Char) : List (List Char) :=
  match scanRun maxlen getenv input with
  | some st => st.lookups
  | none => []

/-- The number of values the whole loop on `input` found and did not copy. -/
def varsubstSkipped (maxlen : Nat) (getenv : List Char → Option (List Char))
    (input : List Char) : Nat :=
  match scanRun maxlen getenv input with
  | some st => st.skipped
  | none => 0

/-- The loop body with no ceiling: a value that is found is always copied. -/
def scanStepNoCeiling (getenv : List Char → Option (List Char))
    (st : ScanState) : ScanState :=
  match st.p with
  | [] => st
  | c :: rest =>
    if c ≠ '$' ∨ (charAt st.p 1 = '[' ∨ charAt st.p 1 = '(') then
      { st with p := rest, out := st.out ++ [c] }
    else
      let braced : Bool := charAt rest 0 = '{'
      let p1 := if braced then rest.drop 1 else rest
      let k := refEnd braced p1
      let name := p1.take k
      match getenv name with
      | none =>
        let prev := if braced then '{' else '$'
        { st with
          p := p1
          out := st.out ++ ['$'] ++ (if prev ≠ '$' then ['{'] else [])
          lookups := st.lookups ++ [name] }
      | some t =>
        { p := if charAt p1 k = '}' then p1.drop (k + 1) else p1.drop k
          out := st.out ++ t
          lookups := st.lookups ++ [name]
          skipped := st.skipped }

/-- The loop with no ceiling: it runs while `*p`. -/
def scanLoopNoCeiling (getenv : List Char → Option (List Char)) :
    Nat → ScanState → Option ScanState
  | 0, st => if st.p ≠ [] then none else some st
  | fuel + 1, st =>
    if st.p ≠ [] then scanLoopNoCeiling getenv fuel (scanStepNoCeiling getenv st)
    else some st

/-- The expansion of `input` with no ceiling. -/
def varsubstNoCeiling (getenv : List Char → Option (List Char))
    (input : List Char) : Option (List Char) :=
  (scanLoopNoCeiling getenv input.length (scanInit input)).map (·.out)

/-! ## The collaborators and the observable calls -/

/-- A call made by the code, with its argument: a call to an external
collaborator, or a call of `do_cd_command` by `enter` or of `enter` by
`command_callback`. -/
inductive Call where
  | do_cd (path : List Char)
  | sync_tree (path : List Char)
  | getenv (name : List Char)
  | message (text : List Char)
  | do_cd_command
  | enter
  | input_clean
  | input_assign_text (text : List Char)
  | quiet_quit_cmd
  | expand_format (c : Char)
  | shell_execute (command : List Char)
  | init_subshell
  | load_prompt
  | input_callback (parm : Int)
deriving DecidableEq, Repr

/-- The state the command line shares with the rest of the program:
`current_panel->cwd`, and whatever else the collaborators own. -/
structure World (σ : Type) where
  cwd : List Char
  ext : σ
deriving DecidableEq, Repr

/-- The functions and constants of other modules that `command.c` uses. -/
structure Collab (σ : Type) where
  MC_MAXPATHLEN : Nat
  do_cd : List Char → World σ → Bool × World σ
  sync_tree : List Char → World σ → World σ
  getenv : List Char → Option (List Char)
  concat_dir_and_file : List Char → List Char → List Char
  strutils_shell_unescape : List Char → List Char
  tilde_expand : List Char → List Char
  strip_password : List Char → List Char
  home_dir : List Char

/-- The shared state together with the calls made so far, oldest first. -/
structure Run (σ : Type) where
  world : World σ
  calls : List Call
deriving DecidableEq, Repr

/-- The paths passed to `do_cd` in a list of calls, in order. -/
def chdirCalls : List Call → List (List Char)
  | [] => []
  | Call.do_cd path :: cs => path :: chdirCalls cs
  | _ :: cs => chdirCalls cs

/-- One call `do_cd (path, cd_parse_command)`. -/
def attempt {σ : Type} (X : Collab σ) (path : List Char) (run : Run σ) : Bool × Run σ :=
  ((X.do_cd path run.world).1,
   { world := (X.do_cd path run.world).2, calls := run.calls ++ [Call.do_cd path] })

/-- One call `sync_tree (path)`. -/
def syncTree {σ : Type} (X : Collab σ) (path : List Char) (run : Run σ) : Run σ :=
  { world := X.sync_tree path run.world, calls := run.calls ++ [Call.sync_tree path] }

/-! ## CDPATH handling, `examine_cd` lines 145-173 -/

/-- The name `"CDPATH"`. -/
def CDPATH : List Char := ['C', 'D', 'P', 'A', 'T', 'H']

/-- The variables of the `while` loop of lines 156-171; `p` is the part of
`cdpath` from the pointer `p` on. -/
structure CdLoop (σ : Type) where
  result : Bool
  c : Char
  p : List Char
  run : Run σ

/-- The body of the `while` loop, lines 158-170; `entry` is the string at `p`
once `*s = 0` is written, and `*p` holds when it is not empty. -/
def cdpathStep {σ : Type} (X : Collab σ) (q : List Char) (st : CdLoop σ) : CdLoop σ :=
  let k := match strchr st.p ':' with
    | none => st.p.length
    | some k => k
  let c := charAt st.p k
  let entry := st.p.take k
  let tried := attempt X (X.concat_dir_and_file entry q) st.run
  { result := if entry ≠ [] then tried.1 else st.result
    c := c
    p := st.p.drop (k + 1)
    run := if entry ≠ [] then tried.2 else st.run }

/-- The guard of the `while` loop, line 156. -/
def cdpathGuard {σ : Type} (st : CdLoop σ) : Bool :=
  !st.result && st.c == ':'

/-- The `while` loop with at most `fuel` iterations. -/
def cdpathLoop {σ : Type} (X : Collab σ) (q : List Char) :
    Nat → CdLoop σ → Option (CdLoop σ)
  | 0, st => if cdpathGuard st then none else some st
  | fuel + 1, st =>
    if cdpathGuard st then cdpathLoop X q fuel (cdpathStep X q st) else some st

/-- Lines 145-173: the first attempt on `q` and the CDPATH search. -/
def cdResolve {σ : Type} (X : Collab σ) (q : List Char) (run : Run σ) :
    Option (Bool × Run σ) :=
  let first := attempt X q run
  if charAt q 0 ≠ PATH_SEP ∧ first.1 = false then
    let cdpath := X.getenv CDPATH
    let run1 : Run σ := { first.2 with calls := first.2.calls ++ [Call.getenv CDPATH] }
    let p := cdpath.getD []
    let c := if cdpath = none then NUL else ':'
    (cdpathLoop X q (p.length + 1) { result := first.1, c := c, p := p, run := run1 }).map
      (fun st => (st.result, st.run))
  else some first

/-- The function `examine_cd`. -/
def examine_cd {σ : Type} (X : Collab σ) (path0 : List Char) (run : Run σ) :
    Option (Bool × Run σ) :=
  let path := X.strutils_shell_unescape path0
  let path_tilde := X.tilde_expand path
  match scanRun X.MC_MAXPATHLEN X.getenv path_tilde with
  | none => none
  | some st => cdResolve X st.out { run with calls := run.calls ++ st.lookups.map Call.getenv }

/-! ## The search order in the words of the specification -/

/-- The `:`-separated entries of a CDPATH value, empty ones included. -/
def splitColon : List Char → List (List Char)
  | [] => [[]]
  | c :: cs =>
    if c = ':' then [] :: splitColon cs
    else match splitColon cs with
      | [] => [[c]]
      | e :: es => (c :: e) :: es

/-- The candidate list: `q` itself, then each non-empty entry joined with `q`. -/
def candidates {σ : Type} (X : Collab σ) (q : List Char) (cdpath : Option (List Char)) :
    List (List Char) :=
  q :: (((cdpath.map splitColon).getD []).filter (· ≠ [])).map
    (fun e => X.concat_dir_and_file e q)

/-- Try the candidates in order and stop at the first success: the result, the
paths attempted, and the world left behind. -/
def firstSuccess {σ : Type} (do_cd : List Char → World σ → Bool × World σ) :
    List (List Char) → World σ → Bool × List (List Char) × World σ
  | [], w => (false, [], w)
  | c :: cs, w =>
    if (do_cd c w).1 then (true, [c], (do_cd c w).2)
    else
      let rest := firstSuccess do_cd cs (do_cd c w).2
      (rest.1, c :: rest.2.1, rest.2.2)

/-! ## `do_cd_command` -/

/-- The characters removed from the end of the command, line 328. -/
def isTrailing (c : Char) : Bool := c = ' ' ∨ c = '\t' ∨ c = '\n'

/-- The characters skipped in front of the operand, line 339. -/
def isBlank (c : Char) : Bool := c = ' ' ∨ c = '\t'

/-- Lines 327-336: `cmd` after the trailing white space is cut off and a bare
`cd` is replaced by `"cd "`. -/
def cdCmd (orig_cmd : List Char) : List Char :=
  let trimmed := orig_cmd.rdropWhile isTrailing
  if charAt trimmed 2 = NUL then ['c', 'd', ' '] else trimmed

/-- Lines 318 and 339-340: `cmd + operand_pos`. -/
def cdOperand (orig_cmd : List Char) : List Char :=
  ((cdCmd orig_cmd).drop 3).dropWhile isBlank

/-- The loop of line 352, `while (len && dir[--len] != PATH_SEP);`, started
at `len`. -/
def dotdotLen (dir : List Char) : Nat → Nat
  | 0 => 0
  | len + 1 => if charAt dir len ≠ PATH_SEP then dotdotLen dir len else len

/-- The function `do_cd_command`; `tree` is `get_current_type () == view_tree`.
It is `none` when `orig_cmd[2]` lies outside the string. -/
def do_cd_command {σ : Type} (X : Collab σ) (tree : Bool) (orig_cmd : List Char)
    (run : Run σ) : Option (Run σ) :=
  if orig_cmd.length < 2 then none
  else
    let cmd := cdCmd orig_cmd
    let operand := cdOperand orig_cmd
    if tree then
      if charAt cmd 0 = NUL then
        some (syncTree X X.home_dir run)
      else if operand = ['.', '.'] then
        let dir := run.world.cwd
        let len := dotdotLen dir dir.length
        let run1 : Run σ := { run with world := { run.world with cwd := dir.take len } }
        if len ≠ 0 then some (syncTree X (dir.take len) run1)
        else some (syncTree X PATH_SEP_STR run1)
      else if charAt operand 0 = PATH_SEP then
        some (syncTree X operand run)
      else
        some (syncTree X (X.concat_dir_and_file run.world.cwd operand) run)
    else
      match examine_cd X operand run with
      | none => none
      | some (result, run1) =>
        if result = false then
          some { run1 with calls := run1.calls ++ [Call.message (X.strip_password operand)] }
        else some run1

/-! ## The offsets written by the variable expansion, lines 104-143 -/

/-- The offsets from `q` that one run of the loop body writes to, in order:
the copied character, the `$` and `{` of a reference that is not found, or
the value and the NUL that `strcpy` puts behind it. -/
def scanStepWrites (maxlen : Nat) (getenv : List Char → Option (List Char))
    (st : ScanState) : List Nat :=
  match st.p with
  | [] => []
  | c :: rest =>
    if c ≠ '$' ∨ (charAt st.p 1 = '[' ∨ charAt st.p 1 = '(') then
      [st.out.length]
    else
      let braced : Bool := charAt rest 0 = '{'
      let p1 := if braced then rest.drop 1 else rest
      let k := refEnd braced p1
      let name := p1.take k
      match getenv name with
      | none =>
        let prev := if braced then '{' else '$'
        st.out.length :: (if prev ≠ '$' then [st.out.length + 1] else [])
      | some t =>
        if st.out.length + t.length < maxlen then
          (List.range (t.length + 1)).map (fun d => st.out.length + d)
        else []

/-- The offsets written by the loop and by `*r = 0` of line 143 after it;
`none` when the guard still holds after `fuel` iterations. -/
def scanLoopWrites (maxlen : Nat) (getenv : List Char → Option (List Char)) :
    Nat → ScanState → Option (List Nat)
  | 0, st => if scanGuard maxlen st then none else some [st.out.length]
  | fuel + 1, st =>
    if scanGuard maxlen st then
      (scanLoopWrites maxlen getenv fuel (scanStep maxlen getenv st)).map
        (fun ws => scanStepWrites maxlen getenv st ++ ws)
    else some [st.out.length]

/-- The offsets written into `q` for the tilde-expanded path `input`. -/
def varsubstWrites (maxlen : Nat) (getenv : List Char → Option (List Char))
    (input : List Char) : Option (List Nat) :=
  scanLoopWrites maxlen getenv input.length (scanInit input)

/-! ## The command line widget and its collaborators -/

/-- The messages a widget callback receives; all but the two that
`command_callback` tells apart are `WIDGET_OTHER`. -/
inductive widget_msg_t where
  | WIDGET_FOCUS
  | WIDGET_KEY
  | WIDGET_OTHER (code : Nat)
deriving DecidableEq, Repr

/-- The result of a widget callback. -/
inductive cb_ret_t where
  | MSG_NOT_HANDLED
  | MSG_HANDLED
deriving DecidableEq, Repr

/-- The fields of `WInput` that `command.c` touches: the text of the input
line and the flag `vi_skip`. -/
structure WInput where
  buffer : List Char
  vi_skip : Int
deriving DecidableEq, Repr

/-- The code of a character key, as compared with `parm`. -/
def keyCode (c : Char) : Int := (c.toNat : Int)

/-- The globals and functions of other modules that `enter` and
`command_callback` use. `subshell_inactive` is `subshell_state == INACTIVE`,
`subshell_exit` is `(quit & SUBSHELL_EXIT) != 0`, `clear_quit` is the
assignment `quit = 0`, and `view_tree` is `get_current_type () == view_tree`. -/
structure Host (σ : Type) where
  command_prompt : Bool
  vi_style : Bool
  HAVE_SUBSHELL_SUPPORT : Bool
  view_tree : World σ → Bool
  vfs_current_is_local : World σ → Bool
  use_subshell : World σ → Bool
  subshell_inactive : World σ → Bool
  subshell_exit : World σ → Bool
  quiet_quit_cmd : World σ → Bool × World σ
  clear_quit : World σ → World σ
  init_subshell : World σ → World σ
  load_prompt : World σ → World σ
  expand_format : Char → World σ → List Char × World σ
  shell_execute : List Char → World σ → World σ
  input_callback : widget_msg_t → Int → WInput → World σ → cb_ret_t × WInput × World σ

/-- Record one call at the end of the calls made so far. -/
def logCall {σ : Type} (c : Call) (run : Run σ) : Run σ :=
  { run with calls := run.calls ++ [c] }

/-- The commands passed to `shell_execute` in a list of calls, in order. -/
def shellCalls : List Call → List (List Char)
  | [] => []
  | Call.shell_execute command :: cs => command :: shellCalls cs
  | _ :: cs => shellCalls cs

/-- Modelled from the spec: `input_clean`, of `lib/widget/input.c`, clears the
input line. -/
def input_clean (lc : WInput) : WInput := { lc with buffer := [] }

/-- Modelled from the spec: `input_assign_text`, of `lib/widget/input.c`, sets
the text of the input line. -/
def input_assign_text (lc : WInput) (text : List Char) : WInput := { lc with buffer := text }

/-- The text of the error message of line 217. -/
def MSG_NON_LOCAL : List Char := "Cannot execute commands on non-local filesystems".toList

/-- The text of the error message of line 225. -/
def MSG_SHELL_BUSY : List Char := "The shell is already running a command".toList

/-! ## Placeholder expansion, `enter` lines 229-249 -/

/-- The variables of the `for` loop of lines 232-249. `command` is the string
held in the buffer `command` and `cap` the size the buffer was last allocated
with. `reads` and `writes` are ghost fields: the indices of `cmd` that were
read, and each index of `command` that was written paired with the size of the
buffer at that time. -/
structure FmtState (σ : Type) where
  i : Nat
  j : Nat
  cap : Nat
  command : List Char
  run : Run σ
  reads : List Nat
  writes : List (Nat × Nat)

/-- Lines 229-232: `cmd_len + 1` bytes are allocated, `command[0] = 0`, and
`i = j = 0`. -/
def fmtInit {σ : Type} (cmd : List Char) (run : Run σ) : FmtState σ :=
  { i := 0, j := 0, cap := cmd.length + 1, command := [], run := run,
    reads := [], writes := [(0, cmd.length + 1)] }

/-- The body of the `for` loop, lines 234-248, followed by its `i++`. -/
def fmtStep {σ : Type} (H : Host σ) (cmd : List Char) (st : FmtState σ) : FmtState σ :=
  if charAt cmd st.i = '%' then
    let i1 := st.i + 1
    let c := charAt cmd i1
    let s := (H.expand_format c st.run.world).1
    let cap1 := st.j + s.length + cmd.length - i1 + 1
    let command1 := st.command.take st.j ++ s
    let j1 := command1.length
    { i := i1 + 1
      j := j1
      cap := cap1
      command := command1
      run := { world := (H.expand_format c st.run.world).2,
               calls := st.run.calls ++ [Call.expand_format c] }
      reads := st.reads ++ [st.i, i1]
      writes := st.writes ++ (List.range (s.length + 1)).map (fun d => (st.j + d, cap1))
        ++ [(j1, cap1)] }
  else
    { i := st.i + 1
      j := st.j + 1
      cap := st.cap
      command := st.command.take st.j ++ [charAt cmd st.i]
      run := st.run
      reads := st.reads ++ [st.i, st.i]
      writes := st.writes ++ [(st.j, st.cap), (st.j + 1, st.cap)] }

/-- The `for` loop with at most `fuel` iterations; `none` when `i < cmd_len`
still holds after them. -/
def fmtLoop {σ : Type} (H : Host σ) (cmd : List Char) : Nat → FmtState σ → Option (FmtState σ)
  | 0, st => if st.i < cmd.length then none else some st
  | fuel + 1, st =>
    if st.i < cmd.length then fmtLoop H cmd fuel (fmtStep H cmd st) else some st

/-- Placeholder expansion in the words of the specification: from left to
right, a `%` and the character after it become what the formatter returns for
that character, and every other character is kept. A `%` at the very end is
followed by the terminating NUL. -/
def expandRef {σ : Type} (f : Char → World σ → List Char × World σ) :
    List Char → World σ → List Char × World σ
  | [], w => ([], w)
  | c :: rest, w =>
    if c = '%' then
      match rest with
      | [] => f NUL w
      | d :: rest1 => ((f d w).1 ++ (expandRef f rest1 (f d w).2).1, (expandRef f rest1 (f d w).2).2)
    else (c :: (expandRef f rest w).1, (expandRef f rest w).2)

/-! ## `enter` -/

/-- The characters skipped at the start of the line, line 192. -/
def isLeading (c : Char) : Bool := c = ' ' ∨ c = '\t' ∨ c = '\n'

/-- The block of `enter` that ran (a ghost value): the return of line 189,
the return of line 196, the `cd` block, the `exit` block, or the last block. -/
inductive EnterPath where
  | noPrompt
  | blank
  | changeDir
  | quitRequest
  | generic
deriving DecidableEq, Repr

/-- What `enter` returns and leaves behind. -/
structure EnterResult (σ : Type) where
  ret : cb_ret_t
  input : WInput
  run : Run σ
  path : EnterPath

/-- One call `quiet_quit_cmd ()`. -/
def askQuit {σ : Type} (H : Host σ) (run : Run σ) : Bool × Run σ :=
  ((H.quiet_quit_cmd run.world).1,
   { world := (H.quiet_quit_cmd run.world).2, calls := run.calls ++ [Call.quiet_quit_cmd] })

/-- Lines 266-267: `if (mc_global.tty.use_subshell) load_prompt (0, NULL);`. -/
def enterLoadPrompt {σ : Type} (H : Host σ) (run : Run σ) : Run σ :=
  if H.use_subshell run.world then
    { world := H.load_prompt run.world, calls := run.calls ++ [Call.load_prompt] }
  else run

/-- Lines 254-268, compiled in with `HAVE_SUBSHELL_SUPPORT`; every way out of
them returns `MSG_HANDLED`. -/
def enterAfterShell {σ : Type} (H : Host σ) (run : Run σ) : Run σ :=
  if H.subshell_exit run.world then
    if (askQuit H run).1 then (askQuit H run).2
    else
      let run1 : Run σ := { (askQuit H run).2 with world := H.clear_quit (askQuit H run).2.world }
      let run2 : Run σ :=
        if H.use_subshell run1.world then
          { world := H.init_subshell run1.world, calls := run1.calls ++ [Call.init_subshell] }
        else run1
      enterLoadPrompt H run2
  else enterLoadPrompt H run

/-- The last block of `enter`, lines 211-269, for the command `cmd`. -/
def enterGeneric {σ : Type} (H : Host σ) (lc : WInput) (cmd : List Char) (run : Run σ) :
    Option (EnterResult σ) :=
  if H.vfs_current_is_local run.world = false then
    some { ret := cb_ret_t.MSG_NOT_HANDLED, input := lc,
           run := logCall (Call.message MSG_NON_LOCAL) run, path := EnterPath.generic }
  else if H.HAVE_SUBSHELL_SUPPORT = true ∧ H.use_subshell run.world = true
      ∧ H.subshell_inactive run.world = false then
    some { ret := cb_ret_t.MSG_NOT_HANDLED, input := lc,
           run := logCall (Call.message MSG_SHELL_BUSY) run, path := EnterPath.generic }
  else
    match fmtLoop H cmd cmd.length (fmtInit cmd run) with
    | none => none
    | some st =>
      let run1 := logCall Call.input_clean st.run
      let run2 : Run σ :=
        { world := H.shell_execute st.command run1.world,
          calls := run1.calls ++ [Call.shell_execute st.command] }
      some { ret := cb_ret_t.MSG_HANDLED, input := input_clean lc,
             run := if H.HAVE_SUBSHELL_SUPPORT then enterAfterShell H run2 else run2,
             path := EnterPath.generic }

/-- The function `enter`. The `cd` block hands `do_cd_command` the text from
`cmd` on; what `do_cd_command` writes into that text is lost when
`input_clean` clears the line. -/
def enter {σ : Type} (H : Host σ) (X : Collab σ) (lc : WInput) (run : Run σ) :
    Option (EnterResult σ) :=
  if H.command_prompt = false then
    some { ret := cb_ret_t.MSG_HANDLED, input := lc, run := run, path := EnterPath.noPrompt }
  else
    let cmd := lc.buffer.dropWhile isLeading
    if cmd = [] then
      some { ret := cb_ret_t.MSG_HANDLED, input := lc, run := run, path := EnterPath.blank }
    else if cmd.take 3 = ['c', 'd', ' '] ∨ cmd = ['c', 'd'] then
      match do_cd_command X (H.view_tree run.world) cmd (logCall Call.do_cd_command run) with
      | none => none
      | some run1 =>
        some { ret := cb_ret_t.MSG_HANDLED, input := input_clean lc,
               run := logCall Call.input_clean run1, path := EnterPath.changeDir }
    else if cmd = ['e', 'x', 'i', 't'] then
      let asked := askQuit H (logCall (Call.input_assign_text []) run)
      some { ret := if asked.1 = false then cb_ret_t.MSG_NOT_HANDLED else cb_ret_t.MSG_HANDLED,
             input := input_assign_text lc [], run := asked.2, path := EnterPath.quitRequest }
    else enterGeneric H lc cmd run

/-- The line classes in the words of the specification, for the line `R`
that is left once the leading white space is removed. -/
def classifyLine (R : List Char) : EnterPath :=
  if R = [] then EnterPath.blank
  else if ['c', 'd', ' '] <+: R ∨ R = ['c', 'd'] then EnterPath.changeDir
  else if R = ['e', 'x', 'i', 't'] then EnterPath.quitRequest
  else EnterPath.generic

/-! ## `command_callback` and `command_new` -/

/-- One call `input_callback (w, msg, parm)`. -/
def callInput {σ : Type} (H : Host σ) (msg : widget_msg_t) (parm : Int) (cmd : WInput)
    (run : Run σ) : cb_ret_t × WInput × Run σ :=
  ((H.input_callback msg parm cmd run.world).1,
   (H.input_callback msg parm cmd run.world).2.1,
   { world := (H.input_callback msg parm cmd run.world).2.2,
     calls := run.calls ++ [Call.input_callback parm] })

/-- The function `command_callback`. -/
def command_callback {σ : Type} (H : Host σ) (X : Collab σ) (msg : widget_msg_t) (parm : Int)
    (cmd : WInput) (run : Run σ) : Option (cb_ret_t × WInput × Run σ) :=
  match msg with
  | widget_msg_t.WIDGET_FOCUS => some (cb_ret_t.MSG_NOT_HANDLED, cmd, run)
  | widget_msg_t.WIDGET_KEY =>
    if cmd.vi_skip ≠ 0 then
      some (cb_ret_t.MSG_NOT_HANDLED,
            if parm = keyCode ':' then { cmd with vi_skip := 0 } else cmd, run)
    else if parm = keyCode '\n' then
      let cmd1 : WInput := if H.vi_style then { cmd with vi_skip := 1 } else cmd
      (enter H X cmd1 (logCall Call.enter run)).map (fun r => (r.ret, r.input, r.run))
    else some (callInput H msg parm cmd run)
  | widget_msg_t.WIDGET_OTHER _ => some (callInput H msg parm cmd run)

/-- Lines 399-402 of `command_new`, applied to the widget that `input_new`
returned. -/
def command_new {σ : Type} (H : Host σ) (fresh : WInput) : WInput :=
  if H.vi_style then { fresh with vi_skip := 1 } else fresh

/-- Deliver the keys of a list to `command_callback` one after the other; the
results are returned oldest first. -/
def feedKeys {σ : Type} (H : Host σ) (X : Collab σ) :
    List Int → WInput → Run σ → Option (List cb_ret_t × WInput × Run σ)
  | [], cmd, run => some ([], cmd, run)
  | k :: ks, cmd, run =>
    match command_callback H X widget_msg_t.WIDGET_KEY k cmd run with
    | none => none
    | some (r, cmd1, run1) =>
      (feedKeys H X ks cmd1 run1).map (fun out => (r :: out.1, out.2.1, out.2.2))

/-! ## A concrete setting for the examples -/

/-- Collaborators for the examples: CDPATH is `a:b:c`, the only directory that
can be entered is `b/p`, and `sync_tree` and `do_cd` leave the world alone. -/
def exampleCollab : Collab Unit where
  MC_MAXPATHLEN := 4096
  do_cd := fun path w => (path = ['b', '/', 'p'], w)
  sync_tree := fun _ w => w
  getenv := fun name => if name = CDPATH then some ['a', ':', 'b', ':', 'c'] else none
  concat_dir_and_file := fun dir file => dir ++ PATH_SEP :: file
  strutils_shell_unescape := fun s => s
  tilde_expand := fun s => s
  strip_password := fun s => s
  home_dir := ['/', 'h']

/-- The same collaborators with CDPATH not set. -/
def exampleCollabNoCdpath : Collab Unit :=
  { exampleCollab with getenv := fun _ => none }

/-- A run that starts in `/x/y` with no call made yet. -/
def exampleRun : Run Unit :=
  { world := { cwd := ['/', 'x', '/', 'y'], ext := () }, calls := [] }

/-- A host for the examples: the prompt is shown, vi style is on, the file
system is local, no subshell is compiled in, `%d` stands for the working
directory, `%%` and a `%` at the end for `%`, any other `%c` for itself, and
quitting is declined. -/
def exampleHost : Host Unit where
  command_prompt := true
  vi_style := true
  HAVE_SUBSHELL_SUPPORT := false
  view_tree := fun _ => false
  vfs_current_is_local := fun _ => true
  use_subshell := fun _ => false
  subshell_inactive := fun _ => true
  subshell_exit := fun _ => false
  quiet_quit_cmd := fun w => (false, w)
  clear_quit := fun w => w
  init_subshell := fun w => w
  load_prompt := fun w => w
  expand_format := fun c w =>
    (if c = 'd' then w.cwd else if c = '%' ∨ c = NUL then ['%'] else ['%', c], w)
  shell_execute := fun _ w => w
  input_callback := fun _ _ lc w => (cb_ret_t.MSG_HANDLED, lc, w)

/-- The same host with a file system that is not local. -/
def exampleHostRemote : Host Unit :=
  { exampleHost with vfs_current_is_local := fun _ => false }

/-- The same host with the command prompt switched off. -/
def exampleHostNoPrompt : Host Unit :=
  { exampleHost with command_prompt := false }

/-- The host with a file system that is not local and the command prompt
switched off. -/
def exampleHostRemoteNoPrompt : Host Unit :=
  { exampleHost with vfs_current_is_local := fun _ => false, command_prompt := false }

/-- Collaborators for the tilde examples: `~` expands to `/h/$V`, the variable
`V` holds `~`, and every directory can be entered. -/
def exampleCollabTilde : Collab Unit :=
  { exampleCollab with
    do_cd := fun _ w => (true, w)
    getenv := fun name => if name = ['V'] then some ['~'] else none
    tilde_expand := fun s =>
      match s with
      | '~' :: rest => ['/', 'h', '/', '$', 'V'] ++ rest
      | _ => s }

/-! ## Lemmas on `strchr` -/

theorem strchr_lt {p : List Char} {c : Char} {k : Nat} (h : strchr p c = some k) : k < p.length := by
  induction p generalizing k with
  | nil => simp [strchr] at h
  | cons x xs ih =>
    simp only [strchr] at h
    split at h
    · simp at h; subst h; simp
    · cases hx : strchr xs c with
      | none => simp [hx] at h
      | some j =>
        simp [hx] at h; subst h
        have := ih hx
        simp; omega

theorem strchr_get {p : List Char} {c : Char} {k : Nat} (h : strchr p c = some k) :
    p.drop k = c :: p.drop (k + 1) ∧ c ∉ p.take k := by
  induction p generalizing k with
  | nil => simp [strchr] at h
  | cons x xs ih =>
    simp only [strchr] at h
    split at h
    · next hxc => simp at h; subst h; simp [hxc]
    · next hxc =>
      cases hx : strchr xs c with
      | none => simp [hx] at h
      | some j =>
        simp [hx] at h; subst h
        have := ih hx
        simp [this.1, this.2]
        exact fun h => hxc h.symm

theorem strchr_none {p : List Char} {c : Char} : strchr p c = none ↔ c ∉ p := by
  induction p with
  | nil => simp [strchr]
  | cons x xs ih =>
    simp only [strchr]
    split
    · next hxc => simp [hxc]
    · next hxc =>
      simp [ih]
      exact fun _ h => hxc h.symm

theorem strchr_append_self {a b : List Char} {c : Char} (h : c ∉ a) :
    strchr (a ++ c :: b) c = some a.length := by
  induction a with
  | nil => simp [strchr]
  | cons x xs ih =>
    simp at h
    simp [strchr, ih h.2]
    exact fun hx => absurd hx.symm h.1

theorem refEnd_le (braced : Bool) (p : List Char) : refEnd braced p ≤ p.length := by
  unfold refEnd
  cases braced <;> simp only
  · cases h : strchr p PATH_SEP with
    | none => simp
    | some k => simpa using Nat.le_of_lt (strchr_lt h)
  · cases h : strchr p '}' with
    | none =>
      cases h2 : strchr p PATH_SEP with
      | none => simp
      | some k => simpa using Nat.le_of_lt (strchr_lt h2)
    | some k => simpa using Nat.le_of_lt (strchr_lt h)


theorem scanStep_length_lt (maxlen : Nat) (getenv : List Char → Option (List Char))
    (st : ScanState) (h : st.p ≠ []) :
    (scanStep maxlen getenv st).p.length < st.p.length := by
  obtain ⟨p, out, l, sk⟩ := st
  cases p with
  | nil => simp at h
  | cons c rest =>
    simp only [scanStep]
    split
    · simp
    · have hle := refEnd_le (decide (charAt rest 0 = '{')) (if decide (charAt rest 0 = '{') = true then rest.drop 1 else rest)
      split
      · simp only [List.length_cons]
        split
        · simp; omega
        · simp
      · simp only [List.length_cons]
        split <;> split <;> (simp; omega)

theorem scanLoop_total (maxlen : Nat) (getenv : List Char → Option (List Char)) :
    ∀ (fuel : Nat) (st : ScanState), st.p.length ≤ fuel →
      ∃ st', scanLoop maxlen getenv fuel st = some st' := by
  intro fuel
  induction fuel with
  | zero =>
    intro st h
    have hp : st.p = [] := List.length_eq_zero.mp (Nat.le_zero.mp h)
    exact ⟨st, by simp [scanLoop, scanGuard, hp]⟩
  | succ n ih =>
    intro st h
    simp only [scanLoop]
    split
    · next hg =>
      have hp : st.p ≠ [] := by
        simp [scanGuard] at hg; exact hg.1
      have := scanStep_length_lt maxlen getenv st hp
      exact ih _ (by omega)
    · exact ⟨st, rfl⟩


theorem charAt_zero_eq {s : List Char} {c : Char} (hc : c ≠ NUL) (h : charAt s 0 = c) :
    s = c :: s.drop 1 := by
  cases s with
  | nil => simp [charAt] at h; exact absurd h.symm hc
  | cons x xs => simp [charAt] at h; simp [h]

theorem scanStep_lookups_subset (maxlen : Nat) (getenv : List Char → Option (List Char))
    (st : ScanState) : st.lookups ⊆ (scanStep maxlen getenv st).lookups := by
  obtain ⟨p, out, l, sk⟩ := st
  cases p with
  | nil => simp [scanStep]
  | cons c rest =>
    simp only [scanStep]
    split
    · simp
    · split <;> simp

theorem scanLoop_lookups_subset (maxlen : Nat) (getenv : List Char → Option (List Char)) :
    ∀ (fuel : Nat) (st st' : ScanState), scanLoop maxlen getenv fuel st = some st' →
      st.lookups ⊆ st'.lookups := by
  intro fuel
  induction fuel with
  | zero =>
    intro st st' h
    simp only [scanLoop] at h
    split at h
    · simp at h
    · simp at h; subst h; simp
  | succ n ih =>
    intro st st' h
    simp only [scanLoop] at h
    split at h
    · exact List.Subset.trans (scanStep_lookups_subset maxlen getenv st) (ih _ _ h)
    · simp at h; subst h; simp

theorem scanStep_undefined (maxlen : Nat) (getenv : List Char → Option (List Char))
    (st : ScanState) (h : ∀ nm ∈ (scanStep maxlen getenv st).lookups, getenv nm = none) :
    (scanStep maxlen getenv st).out ++ (scanStep maxlen getenv st).p = st.out ++ st.p := by
  obtain ⟨p, out, l, sk⟩ := st
  cases p with
  | nil => simp [scanStep]
  | cons c rest =>
    by_cases hc : c ≠ '$' ∨ (charAt (c :: rest) 1 = '[' ∨ charAt (c :: rest) 1 = '(')
    · simp [scanStep, hc]
    · have hc1 : c = '$' := by
        by_contra hne
        exact hc (Or.inl hne)
      simp only [scanStep, if_neg hc] at h ⊢
      split at h
      · next hnone =>
        simp only [hnone]
        by_cases hb : charAt rest 0 = '{'
        · have hrest := charAt_zero_eq (by decide) hb
          simp [hb, hc1]
          simpa using hrest.symm
        · simp [hb, hc1]
      · next t hsome =>
        have := h _ (List.mem_append_right _ (List.mem_singleton_self _))
        rw [hsome] at this
        simp at this

theorem scanLoop_undefined (maxlen : Nat) (getenv : List Char → Option (List Char)) :
    ∀ (fuel : Nat) (st st' : ScanState), st.out.length + st.p.length ≤ maxlen →
      scanLoop maxlen getenv fuel st = some st' →
      (∀ nm ∈ st'.lookups, getenv nm = none) → st'.out = st.out ++ st.p := by
  intro fuel
  induction fuel with
  | zero =>
    intro st st' hlen h _
    simp only [scanLoop] at h
    split at h
    · simp at h
    · next hg =>
      simp at h; subst h
      simp [scanGuard] at hg
      by_cases hp : st.p = []
      · simp [hp]
      · have := hg hp
        have : st.p.length = 0 := by omega
        exact absurd (List.length_eq_zero.mp this) hp
  | succ n ih =>
    intro st st' hlen h hun
    simp only [scanLoop] at h
    split at h
    · have hsub := scanLoop_lookups_subset maxlen getenv n _ _ h
      have hstep := scanStep_undefined maxlen getenv st (fun nm hnm => hun nm (hsub hnm))
      have hl := congrArg List.length hstep
      simp only [List.length_append] at hl
      rw [ih _ _ (by omega) h hun, hstep]
    · next hg =>
      simp at h; subst h
      simp [scanGuard] at hg
      by_cases hp : st.p = []
      · simp [hp]
      · have := hg hp
        have : st.p.length = 0 := by omega
        exact absurd (List.length_eq_zero.mp this) hp

/-- C1: when the input is no longer than `MC_MAXPATHLEN` and every lookup made
during the scan fails, the expansion is the input itself. -/
theorem varsubst_undefined_literal (maxlen : Nat) (getenv : List Char → Option (List Char))
    (input : List Char) (hlen : input.length ≤ maxlen)
    (hun : ∀ nm ∈ varsubstLookups maxlen getenv input, getenv nm = none) :
    varsubst maxlen getenv input = some input := by
  obtain ⟨st', hrun⟩ := scanLoop_total maxlen getenv input.length (scanInit input) (by simp [scanInit])
  have hl : varsubstLookups maxlen getenv input = st'.lookups := by
    simp [varsubstLookups, scanRun, hrun]
  rw [hl] at hun
  have := scanLoop_undefined maxlen getenv _ _ _ (by simpa [scanInit] using hlen) hrun hun
  rw [varsubst, scanRun, hrun]
  simp [this, scanInit]

theorem varsubst_undefined_literal_witness :
    (['$', '{', 'N', 'A', 'M', 'E', '}'] : List Char).length ≤ 4096 ∧
    varsubst 4096 (fun _ => none) ['$', '{', 'N', 'A', 'M', 'E', '}']
      = some ['$', '{', 'N', 'A', 'M', 'E', '}'] :=
  ⟨by decide, varsubst_undefined_literal 4096 (fun _ => none) _ (by decide) (fun _ _ => rfl)⟩

/-! ## Defined variables -/

theorem scanLoop_copy_all (maxlen : Nat) (getenv : List Char → Option (List Char)) :
    ∀ (S : List Char) (fuel : Nat) (out : List Char) (l : List (List Char)) (sk : Nat),
      '$' ∉ S → S.length ≤ fuel → out.length + S.length ≤ maxlen →
      scanLoop maxlen getenv fuel ⟨S, out, l, sk⟩ = some ⟨[], out ++ S, l, sk⟩ := by
  intro S
  induction S with
  | nil =>
    intro fuel out l sk _ _ _
    cases fuel <;> simp [scanLoop, scanGuard]
  | cons a S ih =>
    intro fuel out l sk hS hfuel hlen
    cases fuel with
    | zero => simp at hfuel
    | succ n =>
      simp only [List.length_cons] at hfuel hlen
      have ha : a ≠ '$' := fun h => hS (by simp [h])
      have hS' : '$' ∉ S := fun h => hS (List.mem_cons_of_mem _ h)
      have hg : scanGuard maxlen ⟨a :: S, out, l, sk⟩ = true := by
        simp [scanGuard]; omega
      have hstep : scanStep maxlen getenv ⟨a :: S, out, l, sk⟩ = ⟨S, out ++ [a], l, sk⟩ := by
        simp [scanStep, ha]
      rw [scanLoop, if_pos hg, hstep, ih n (out ++ [a]) l sk hS' (by omega) (by simp; omega)]
      simp

theorem scanLoop_copy (maxlen : Nat) (getenv : List Char → Option (List Char)) :
    ∀ (A rest : List Char) (fuel : Nat) (out : List Char) (l : List (List Char)) (sk : Nat),
      '$' ∉ A → out.length + A.length ≤ maxlen →
      scanLoop maxlen getenv (fuel + A.length) ⟨A ++ rest, out, l, sk⟩
        = scanLoop maxlen getenv fuel ⟨rest, out ++ A, l, sk⟩ := by
  intro A
  induction A with
  | nil => intro rest fuel out l sk _ _; simp
  | cons a A ih =>
    intro rest fuel out l sk hA hlen
    simp only [List.length_cons] at hlen
    have ha : a ≠ '$' := fun h => hA (by simp [h])
    have hA' : '$' ∉ A := fun h => hA (List.mem_cons_of_mem _ h)
    have hg : scanGuard maxlen ⟨a :: A ++ rest, out, l, sk⟩ = true := by
      simp [scanGuard]; omega
    have hstep : scanStep maxlen getenv ⟨a :: A ++ rest, out, l, sk⟩
        = ⟨A ++ rest, out ++ [a], l, sk⟩ := by
      simp [scanStep, ha]
    have hf : fuel + (a :: A).length = (fuel + A.length) + 1 := by simp; omega
    rw [hf, scanLoop, if_pos hg, hstep, ih rest fuel (out ++ [a]) l sk hA' (by simp; omega)]
    simp

theorem charAt_append_length (N T : List Char) :
    charAt (N ++ T) N.length = charAt T 0 := by
  simp [charAt, List.getD_eq_getElem?_getD, List.getElem?_append_right]

theorem scanStep_braced_found (maxlen : Nat) (getenv : List Char → Option (List Char))
    (N v S out : List Char) (l : List (List Char)) (sk : Nat)
    (hN : '}' ∉ N) (hdef : getenv N = some v) (hfit : out.length + v.length < maxlen) :
    scanStep maxlen getenv ⟨'$' :: '{' :: (N ++ '}' :: S), out, l, sk⟩
      = ⟨S, out ++ v, l ++ [N], sk⟩ := by
  have hk : refEnd true (N ++ '}' :: S) = N.length := by
    simp [refEnd, strchr_append_self hN]
  have hc : charAt (N ++ '}' :: S) N.length = '}' := by
    rw [charAt_append_length]; simp [charAt]
  have hc0 : charAt ('{' :: (N ++ '}' :: S)) 0 = '{' := by simp [charAt]
  have hc1 : charAt ('$' :: '{' :: (N ++ '}' :: S)) 1 = '{' := by simp [charAt]
  simp only [scanStep, hc1, hc0]
  simp [hk, hdef, hfit, hc]

theorem refEnd_unbraced_sep (N S : List Char) (hN : PATH_SEP ∉ N) :
    refEnd false (N ++ PATH_SEP :: S) = N.length := by
  simp [refEnd, strchr_append_self hN]

theorem refEnd_unbraced_end (N : List Char) (hN : PATH_SEP ∉ N) :
    refEnd false N = N.length := by
  simp [refEnd, strchr_none.mpr hN]

theorem scanStep_unbraced_found (maxlen : Nat) (getenv : List Char → Option (List Char))
    (N T v out : List Char) (l : List (List Char)) (sk : Nat)
    (hk : refEnd false (N ++ T) = N.length) (hT : charAt T 0 ≠ '}')
    (h1 : charAt (N ++ T) 0 ≠ '{') (h2 : charAt (N ++ T) 0 ≠ '[') (h3 : charAt (N ++ T) 0 ≠ '(')
    (hdef : getenv N = some v) (hfit : out.length + v.length < maxlen) :
    scanStep maxlen getenv ⟨'$' :: (N ++ T), out, l, sk⟩
      = ⟨T, out ++ v, l ++ [N], sk⟩ := by
  have hc : charAt (N ++ T) N.length = charAt T 0 := charAt_append_length N T
  have hc1 : charAt ('$' :: (N ++ T)) 1 = charAt (N ++ T) 0 := by
    simp [charAt]
  simp only [scanStep, hc1]
  simp [h1, h2, h3, hk, hdef, hfit, hc, hT]

theorem charAt_append_zero (N T : List Char) (c : Char) (hc : c ≠ PATH_SEP)
    (hN : charAt N 0 ≠ c) : charAt (N ++ PATH_SEP :: T) 0 ≠ c := by
  cases N with
  | nil => simpa [charAt] using fun h => hc h.symm
  | cons x xs => simpa [charAt] using hN

/-- C2: a defined variable referenced as `${N}` or `$N` is replaced by exactly
its value, copied verbatim, and the literal text after it is kept. -/
theorem varsubst_defined_value (maxlen : Nat) (getenv : List Char → Option (List Char))
    (N v S : List Char) (hdef : getenv N = some v) (hS : '$' ∉ S)
    (hlen : v.length + S.length + 1 < maxlen) :
    ('}' ∉ N → varsubst maxlen getenv ('$' :: '{' :: (N ++ '}' :: S)) = some (v ++ S)) ∧
    (PATH_SEP ∉ N → charAt N 0 ≠ '{' → charAt N 0 ≠ '[' → charAt N 0 ≠ '(' →
      varsubst maxlen getenv ('$' :: N) = some v ∧
      varsubst maxlen getenv ('$' :: (N ++ PATH_SEP :: S)) = some (v ++ PATH_SEP :: S)) := by
  refine ⟨fun hN => ?_, fun hN h1 h2 h3 => ⟨?_, ?_⟩⟩
  · have hg : scanGuard maxlen (scanInit ('$' :: '{' :: (N ++ '}' :: S))) = true := by
      simp [scanGuard, scanInit]; omega
    have hstep := scanStep_braced_found maxlen getenv N v S [] [] 0 hN hdef (by simp; omega)
    have hloop := scanLoop_copy_all maxlen getenv S (N.length + S.length + 2) ([] ++ v) ([] ++ [N]) 0
      hS (by omega) (by simp; omega)
    have hf : ('$' :: '{' :: (N ++ '}' :: S)).length = (N.length + S.length + 2) + 1 := by
      simp; omega
    rw [varsubst, scanRun, hf, scanLoop, if_pos hg]
    simp only [scanInit] at hstep ⊢
    rw [hstep, hloop]
    simp
  · have hg : scanGuard maxlen (scanInit ('$' :: N)) = true := by
      simp [scanGuard, scanInit]; omega
    have hstep := scanStep_unbraced_found maxlen getenv N [] v [] [] 0
      (by simpa using refEnd_unbraced_end N hN) (by simp [charAt, NUL])
      (by simpa using h1) (by simpa using h2) (by simpa using h3) hdef (by simp; omega)
    have hf : ('$' :: N).length = N.length + 1 := by simp
    rw [varsubst, scanRun, hf, scanLoop, if_pos hg]
    simp only [scanInit, List.append_nil] at hstep ⊢
    rw [hstep]
    cases N.length <;> simp [scanLoop, scanGuard]
  · have hg : scanGuard maxlen (scanInit ('$' :: (N ++ PATH_SEP :: S))) = true := by
      simp [scanGuard, scanInit]; omega
    have hstep := scanStep_unbraced_found maxlen getenv N (PATH_SEP :: S) v [] [] 0
      (refEnd_unbraced_sep N S hN) (by simp [charAt, PATH_SEP])
      (charAt_append_zero N S _ (by decide) h1) (charAt_append_zero N S _ (by decide) h2)
      (charAt_append_zero N S _ (by decide) h3) hdef (by simp; omega)
    have hloop := scanLoop_copy_all maxlen getenv (PATH_SEP :: S) (N.length + S.length + 1)
      ([] ++ v) ([] ++ [N]) 0
      (by simp [hS, PATH_SEP]) (by simp only [List.length_cons]; omega) (by simp; omega)
    have hf : ('$' :: (N ++ PATH_SEP :: S)).length = (N.length + S.length + 1) + 1 := by
      simp; omega
    rw [varsubst, scanRun, hf, scanLoop, if_pos hg]
    simp only [scanInit] at hstep ⊢
    rw [hstep, hloop]
    simp

theorem varsubst_defined_value_witness :
    varsubst 4096 (fun n => if n = ['H'] then some ['/', 'r', '$', 'x'] else none)
        ('$' :: '{' :: (['H'] ++ '}' :: ['/', 'a'])) = some (['/', 'r', '$', 'x'] ++ ['/', 'a']) ∧
    varsubst 4096 (fun n => if n = ['H'] then some ['/', 'r', '$', 'x'] else none)
        ('$' :: ['H']) = some ['/', 'r', '$', 'x'] ∧
    varsubst 4096 (fun n => if n = ['H'] then some ['/', 'r', '$', 'x'] else none)
        ('$' :: (['H'] ++ PATH_SEP :: ['/', 'a']))
      = some (['/', 'r', '$', 'x'] ++ PATH_SEP :: ['/', 'a']) :=
  have h := varsubst_defined_value 4096
    (fun n => if n = ['H'] then some ['/', 'r', '$', 'x'] else none)
    ['H'] ['/', 'r', '$', 'x'] ['/', 'a'] (by decide) (by decide) (by decide)
  ⟨h.1 (by decide), h.2 (by decide) (by decide) (by decide) (by decide)⟩

/-! ## `$(` and `$[` -/

/-- C6: with one character of room left an undefined braced reference is
written as `$` and `{`, which takes the write cursor to `MC_MAXPATHLEN + 1`. -/
theorem varsubst_overshoots_ceiling (m : Nat) :
    varsubst (m + 1) (fun _ => none) (List.replicate m 'a' ++ ['$', '{', 'X', '}'])
      = some (List.replicate m 'a' ++ ['$', '{']) := by
  have hA : '$' ∉ List.replicate m 'a' := by
    intro h
    have := List.eq_of_mem_replicate h
    simp at this
  have hf : (List.replicate m 'a' ++ ['$', '{', 'X', '}']).length = 4 + (List.replicate m 'a').length := by
    simp; omega
  rw [varsubst, scanRun, hf, scanInit,
    scanLoop_copy (m + 1) (fun _ => none) _ _ 4 [] [] 0 hA (by simp)]
  simp [scanLoop, scanGuard, scanStep, charAt, refEnd, strchr]

theorem scanStep_out_length_le (maxlen : Nat) (getenv : List Char → Option (List Char))
    (st : ScanState) (h : st.out.length < maxlen) :
    (scanStep maxlen getenv st).out.length ≤ maxlen + 1 := by
  obtain ⟨p, out, l, sk⟩ := st
  simp only at h
  cases p with
  | nil => simp [scanStep]; omega
  | cons c rest =>
    by_cases hc : c ≠ '$' ∨ (charAt (c :: rest) 1 = '[' ∨ charAt (c :: rest) 1 = '(')
    · simp [scanStep, hc]; omega
    · simp only [scanStep, if_neg hc]
      split
      · simp only [List.length_append, List.length_singleton]
        split <;> simp <;> omega
      · next t _ =>
        by_cases hfit : out.length + t.length < maxlen
        · simp [hfit]; omega
        · simp [hfit]; omega

/-- The write cursor ends at `MC_MAXPATHLEN + 1` at most. -/
theorem scanLoop_out_length_le (maxlen : Nat) (getenv : List Char → Option (List Char)) :
    ∀ (fuel : Nat) (st st' : ScanState), st.out.length ≤ maxlen + 1 →
      scanLoop maxlen getenv fuel st = some st' → st'.out.length ≤ maxlen + 1 := by
  intro fuel
  induction fuel with
  | zero =>
    intro st st' hle h
    simp only [scanLoop] at h
    split at h
    · simp at h
    · simp at h; subst h; exact hle
  | succ n ih =>
    intro st st' hle h
    simp only [scanLoop] at h
    split at h
    · next hg =>
      have hlt : st.out.length < maxlen := by
        simp [scanGuard] at hg; exact hg.2
      exact ih _ _ (scanStep_out_length_le maxlen getenv st hlt) h
    · simp at h; subst h; exact hle

/-! ## Truncation against the pass with no ceiling -/

theorem scanStep_skipped_le (maxlen : Nat) (getenv : List Char → Option (List Char))
    (st : ScanState) : st.skipped ≤ (scanStep maxlen getenv st).skipped := by
  obtain ⟨p, out, l, sk⟩ := st
  cases p with
  | nil => simp [scanStep]
  | cons c rest =>
    by_cases hc : c ≠ '$' ∨ (charAt (c :: rest) 1 = '[' ∨ charAt (c :: rest) 1 = '(')
    · simp [scanStep, hc]
    · simp only [scanStep, if_neg hc]
      split
      · simp
      · next t _ =>
        by_cases hfit : out.length + t.length < maxlen <;> simp [hfit]

theorem scanLoop_skipped_le (maxlen : Nat) (getenv : List Char → Option (List Char)) :
    ∀ (fuel : Nat) (st st' : ScanState), scanLoop maxlen getenv fuel st = some st' →
      st.skipped ≤ st'.skipped := by
  intro fuel
  induction fuel with
  | zero =>
    intro st st' h
    simp only [scanLoop] at h
    split at h
    · simp at h
    · simp at h; subst h; exact Nat.le_refl _
  | succ n ih =>
    intro st st' h
    simp only [scanLoop] at h
    split at h
    · exact Nat.le_trans (scanStep_skipped_le maxlen getenv st) (ih _ _ h)
    · simp at h; subst h; exact Nat.le_refl _

theorem scanStep_eq_noCeiling (maxlen : Nat) (getenv : List Char → Option (List Char))
    (st : ScanState) (h : (scanStep maxlen getenv st).skipped = st.skipped) :
    scanStep maxlen getenv st = scanStepNoCeiling getenv st := by
  obtain ⟨p, out, l, sk⟩ := st
  cases p with
  | nil => simp [scanStep, scanStepNoCeiling]
  | cons c rest =>
    by_cases hc : c ≠ '$' ∨ (charAt (c :: rest) 1 = '[' ∨ charAt (c :: rest) 1 = '(')
    · simp [scanStep, scanStepNoCeiling, hc]
    · simp only [scanStep, scanStepNoCeiling, if_neg hc] at h ⊢
      split
      · rfl
      · next t ht =>
        simp only [ht] at h
        by_cases hfit : out.length + t.length < maxlen
        · simp [hfit]
        · simp [hfit] at h

theorem scanStepNoCeiling_p (maxlen : Nat) (getenv : List Char → Option (List Char))
    (st : ScanState) : (scanStepNoCeiling getenv st).p = (scanStep maxlen getenv st).p := by
  obtain ⟨p, out, l, sk⟩ := st
  cases p with
  | nil => simp [scanStep, scanStepNoCeiling]
  | cons c rest =>
    by_cases hc : c ≠ '$' ∨ (charAt (c :: rest) 1 = '[' ∨ charAt (c :: rest) 1 = '(')
    · simp [scanStep, scanStepNoCeiling, hc]
    · simp only [scanStep, scanStepNoCeiling, if_neg hc]
      split <;> rfl

theorem scanStepNoCeiling_out_extends (getenv : List Char → Option (List Char))
    (st : ScanState) : st.out <+: (scanStepNoCeiling getenv st).out := by
  obtain ⟨p, out, l, sk⟩ := st
  cases p with
  | nil => exact ⟨[], by simp [scanStepNoCeiling]⟩
  | cons c rest =>
    by_cases hc : c ≠ '$' ∨ (charAt (c :: rest) 1 = '[' ∨ charAt (c :: rest) 1 = '(')
    · exact ⟨[c], by simp [scanStepNoCeiling, hc]⟩
    · simp only [scanStepNoCeiling, if_neg hc]
      split
      · exact ⟨_, (List.append_assoc _ _ _).symm⟩
      · next t _ => exact ⟨t, rfl⟩

theorem scanLoopNoCeiling_total (getenv : List Char → Option (List Char)) :
    ∀ (fuel : Nat) (st : ScanState), st.p.length ≤ fuel →
      ∃ u, scanLoopNoCeiling getenv fuel st = some u ∧ st.out <+: u.out := by
  intro fuel
  induction fuel with
  | zero =>
    intro st h
    have hp : st.p = [] := List.length_eq_zero.mp (Nat.le_zero.mp h)
    exact ⟨st, by simp [scanLoopNoCeiling, hp], ⟨[], by simp⟩⟩
  | succ n ih =>
    intro st h
    simp only [scanLoopNoCeiling]
    split
    · next hp =>
      have hlt := scanStep_length_lt 0 getenv st hp
      rw [← scanStepNoCeiling_p 0 getenv st] at hlt
      obtain ⟨u, hu, b, hb⟩ := ih (scanStepNoCeiling getenv st) (by omega)
      obtain ⟨a, ha⟩ := scanStepNoCeiling_out_extends getenv st
      exact ⟨u, hu, ⟨a ++ b, by rw [← hb, ← ha, List.append_assoc]⟩⟩
    · exact ⟨st, rfl, ⟨[], by simp⟩⟩

theorem scanLoop_noCeiling (maxlen : Nat) (getenv : List Char → Option (List Char)) :
    ∀ (fuel : Nat) (st st' : ScanState), st.p.length ≤ fuel →
      scanLoop maxlen getenv fuel st = some st' → st'.skipped = st.skipped →
      ∃ u, scanLoopNoCeiling getenv fuel st = some u ∧ st'.out <+: u.out := by
  intro fuel
  induction fuel with
  | zero =>
    intro st st' hlen h _
    simp only [scanLoop] at h
    split at h
    · simp at h
    · simp at h; subst h
      exact scanLoopNoCeiling_total getenv 0 st hlen
  | succ n ih =>
    intro st st' hlen h hsk
    simp only [scanLoop] at h
    split at h
    · next hg =>
      have hp : st.p ≠ [] := by
        simp [scanGuard] at hg; exact hg.1
      have h1 := scanStep_skipped_le maxlen getenv st
      have h2 := scanLoop_skipped_le maxlen getenv n _ _ h
      have heq := scanStep_eq_noCeiling maxlen getenv st (by omega)
      have hlt := scanStep_length_lt maxlen getenv st hp
      have := ih (scanStep maxlen getenv st) st' (by omega) h (by omega)
      rw [heq] at this
      simpa [scanLoopNoCeiling, hp] using this
    · simp at h; subst h
      exact scanLoopNoCeiling_total getenv (n + 1) st hlen

/-- C7, counterexample: the value of `X` does not fit below the
ceiling, is left out, and the scan goes on copying what follows it, so the
result is no initial segment of the expansion with no ceiling. -/
theorem varsubst_not_truncation :
    varsubst 10 (fun n => if n = ['X'] then some ['0', '1', '2', '3', '4', '5', '6', '7', '8', '9'] else none)
        ['a', 'b', '$', 'X', '/', 'c', 'd'] = some ['a', 'b', '/', 'c', 'd'] ∧
    varsubstNoCeiling (fun n => if n = ['X'] then some ['0', '1', '2', '3', '4', '5', '6', '7', '8', '9'] else none)
        ['a', 'b', '$', 'X', '/', 'c', 'd']
      = some ['a', 'b', '0', '1', '2', '3', '4', '5', '6', '7', '8', '9', '/', 'c', 'd'] ∧
    ¬ (['a', 'b', '/', 'c', 'd'] <+:
        ['a', 'b', '0', '1', '2', '3', '4', '5', '6', '7', '8', '9', '/', 'c', 'd']) := by
  decide

/-- C7 as amended: when no value that was found is left out for lack of room,
the expansion is an initial segment of the expansion with no ceiling. -/
theorem varsubst_truncates_noCeiling (maxlen : Nat) (getenv : List Char → Option (List Char))
    (input : List Char) (h : varsubstSkipped maxlen getenv input = 0) :
    ∃ o u, varsubst maxlen getenv input = some o ∧ varsubstNoCeiling getenv input = some u ∧
      o <+: u := by
  obtain ⟨st', hrun⟩ := scanLoop_total maxlen getenv input.length (scanInit input)
    (by simp [scanInit])
  have hsk : st'.skipped = (scanInit input).skipped := by
    rw [varsubstSkipped, scanRun, hrun] at h
    simpa [scanInit] using h
  obtain ⟨u, hu, hpre⟩ := scanLoop_noCeiling maxlen getenv input.length (scanInit input) st'
    (by simp [scanInit]) hrun hsk
  exact ⟨st'.out, u.out, by rw [varsubst, scanRun, hrun]; rfl,
    by rw [varsubstNoCeiling, hu]; rfl, hpre⟩

theorem varsubst_truncates_noCeiling_witness :
    varsubstSkipped 4 (fun n => if n = ['X'] then some ['v', 'w'] else none)
        ['a', '$', 'X', '/', 'c', 'd'] = 0 ∧
    ∃ o u, varsubst 4 (fun n => if n = ['X'] then some ['v', 'w'] else none)
        ['a', '$', 'X', '/', 'c', 'd'] = some o ∧
      varsubstNoCeiling (fun n => if n = ['X'] then some ['v', 'w'] else none)
        ['a', '$', 'X', '/', 'c', 'd'] = some u ∧ o <+: u :=
  ⟨by decide, varsubst_truncates_noCeiling 4 _ _ (by decide)⟩

/-! ## The CDPATH search -/

theorem splitColon_no_colon (a : List Char) (h : ':' ∉ a) : splitColon a = [a] := by
  induction a with
  | nil => rfl
  | cons x xs ih =>
    have hx : x ≠ ':' := fun e => h (by simp [e])
    have hxs : ':' ∉ xs := fun e => h (List.mem_cons_of_mem _ e)
    simp [splitColon, hx, ih hxs]

theorem splitColon_append (a b : List Char) (h : ':' ∉ a) :
    splitColon (a ++ ':' :: b) = a :: splitColon b := by
  induction a with
  | nil => simp [splitColon]
  | cons x xs ih =>
    have hx : x ≠ ':' := fun e => h (by simp [e])
    have hxs : ':' ∉ xs := fun e => h (List.mem_cons_of_mem _ e)
    simp [splitColon, hx, ih hxs]

theorem chdirCalls_append (a b : List Call) :
    chdirCalls (a ++ b) = chdirCalls a ++ chdirCalls b := by
  induction a with
  | nil => rfl
  | cons x xs ih => cases x <;> simp [chdirCalls, ih]

theorem chdirCalls_map_do_cd (ps : List (List Char)) :
    chdirCalls (ps.map Call.do_cd) = ps := by
  induction ps with
  | nil => rfl
  | cons x xs ih => simp [chdirCalls, ih]

/-- The `while` loop entered with `result = 0` and `c = ':'` tries the
non-empty entries of `p` in order and stops at the first success. -/
theorem cdpathLoop_firstSuccess {σ : Type} (X : Collab σ) (q : List Char) :
    ∀ (fuel : Nat) (p : List Char) (run : Run σ), p.length < fuel →
      ∃ st', cdpathLoop X q fuel ⟨false, ':', p, run⟩ = some st' ∧
        st'.result = (firstSuccess X.do_cd
          (((splitColon p).filter (· ≠ [])).map (fun e => X.concat_dir_and_file e q))
          run.world).1 ∧
        st'.run.calls = run.calls ++ ((firstSuccess X.do_cd
          (((splitColon p).filter (· ≠ [])).map (fun e => X.concat_dir_and_file e q))
          run.world).2.1).map Call.do_cd ∧
        st'.run.world = (firstSuccess X.do_cd
          (((splitColon p).filter (· ≠ [])).map (fun e => X.concat_dir_and_file e q))
          run.world).2.2 := by
  intro fuel
  induction fuel with
  | zero => intro p run h; simp at h
  | succ n ih =>
    intro p run hlen
    have hg : cdpathGuard (⟨false, ':', p, run⟩ : CdLoop σ) = true := by simp [cdpathGuard]
    rw [cdpathLoop, if_pos hg]
    cases hs : strchr p ':' with
    | none =>
      have hno : ':' ∉ p := strchr_none.mp hs
      have hc : charAt p p.length = NUL := by simp [charAt]
      have hstop : ∀ (r : Bool) (p' : List Char) (run' : Run σ),
          cdpathLoop X q n ⟨r, NUL, p', run'⟩ = some ⟨r, NUL, p', run'⟩ := by
        intro r p' run'
        cases n <;> simp [cdpathLoop, cdpathGuard, NUL]
      by_cases hp : p = []
      · subst hp
        refine ⟨⟨false, NUL, [], run⟩, ?_, ?_⟩
        · simp [cdpathStep, strchr, charAt, hstop]
        · simp [splitColon, firstSuccess]
      · simp only [cdpathStep, hs, hc, List.take_length, if_pos hp]
        rw [hstop]
        refine ⟨_, rfl, ?_⟩
        simp only [splitColon_no_colon p hno, attempt]
        by_cases hok : (X.do_cd (X.concat_dir_and_file p q) run.world).1 = true
        · simp [firstSuccess, hok, hp]
        · simp [firstSuccess, hok, hp]
    | some k =>
      obtain ⟨hdrop, hnot⟩ := strchr_get hs
      have hklt := strchr_lt hs
      have hp : p = p.take k ++ ':' :: p.drop (k + 1) := by
        conv_lhs => rw [← List.take_append_drop k p, hdrop]
      have hc : charAt p k = ':' := by
        have : charAt p k = charAt (p.drop k) 0 := by
          simp [charAt, List.getD_eq_getElem?_getD]
        rw [this, hdrop]; simp [charAt]
      have hsplit : splitColon p = p.take k :: splitColon (p.drop (k + 1)) := by
        conv_lhs => rw [hp]
        exact splitColon_append _ _ hnot
      have hl : (p.drop (k + 1)).length < n := by
        simp only [List.length_drop]; omega
      simp only [cdpathStep, hs, hc, hsplit]
      by_cases he : p.take k = []
      · obtain ⟨st', h1, h2⟩ := ih (p.drop (k + 1)) run hl
        refine ⟨st', ?_, ?_⟩
        · simpa [he] using h1
        · simpa [he] using h2
      · by_cases hok : (X.do_cd (X.concat_dir_and_file (p.take k) q) run.world).1 = true
        · have hstop2 : ∀ (c : Char) (p' : List Char) (run' : Run σ),
              cdpathLoop X q n ⟨true, c, p', run'⟩ = some ⟨true, c, p', run'⟩ := by
            intro c p' run'
            cases n <;> simp [cdpathLoop, cdpathGuard]
          have hok' : (attempt X (X.concat_dir_and_file (p.take k) q) run).1 = true := hok
          simp only [if_pos he, hok']
          rw [hstop2]
          refine ⟨_, rfl, ?_⟩
          simp [firstSuccess, hok, he, attempt]
        · obtain ⟨st', h1, h2, h3, h4⟩ := ih (p.drop (k + 1))
            (attempt X (X.concat_dir_and_file (p.take k) q) run).2 hl
          have hokf : (X.do_cd (X.concat_dir_and_file (p.take k) q) run.world).1 = false := by
            simpa using hok
          refine ⟨st', ?_, ?_, ?_, ?_⟩
          · simp only [if_pos he]
            simpa [attempt, hokf] using h1
          · simpa [firstSuccess, hokf, he, attempt] using h2
          · simpa [firstSuccess, hokf, he, attempt] using h3
          · simpa [firstSuccess, hokf, he, attempt] using h4

theorem firstSuccess_attempts_initial {σ : Type} (do_cd : List Char → World σ → Bool × World σ) :
    ∀ (cs : List (List Char)) (w : World σ), (firstSuccess do_cd cs w).2.1 <+: cs := by
  intro cs
  induction cs with
  | nil => intro w; exact ⟨[], rfl⟩
  | cons c cs ih =>
    intro w
    by_cases hok : (do_cd c w).1 = true
    · exact ⟨cs, by simp [firstSuccess, hok]⟩
    · obtain ⟨t, ht⟩ := ih (do_cd c w).2
      refine ⟨t, ?_⟩
      simp only [firstSuccess, hok]
      simpa using ht

/-- C4: for a path that does not begin with the separator, `examine_cd` tries
the path itself and then each non-empty CDPATH entry joined with it, from left
to right, stops at the first success, and returns whether one succeeded. -/
theorem cdResolve_search_order {σ : Type} (X : Collab σ) (q : List Char) (run : Run σ)
    (hq : charAt q 0 ≠ PATH_SEP) :
    ∃ r run', cdResolve X q run = some (r, run') ∧
      r = (firstSuccess X.do_cd (candidates X q (X.getenv CDPATH)) run.world).1 ∧
      chdirCalls run'.calls = chdirCalls run.calls ++
        (firstSuccess X.do_cd (candidates X q (X.getenv CDPATH)) run.world).2.1 ∧
      run'.world = (firstSuccess X.do_cd (candidates X q (X.getenv CDPATH)) run.world).2.2 ∧
      (firstSuccess X.do_cd (candidates X q (X.getenv CDPATH)) run.world).2.1
        <+: candidates X q (X.getenv CDPATH) := by
  by_cases hok : (X.do_cd q run.world).1 = true
  · refine ⟨true, (attempt X q run).2, ?_, ?_, ?_, ?_, firstSuccess_attempts_initial _ _ _⟩
    · simp [cdResolve, attempt, hok]
    · simp [candidates, firstSuccess, hok]
    · simp [candidates, firstSuccess, hok, attempt, chdirCalls_append, chdirCalls]
    · simp [candidates, firstSuccess, hok, attempt]
  · have hokf : (X.do_cd q run.world).1 = false := by simpa using hok
    cases hcd : X.getenv CDPATH with
    | none =>
      refine ⟨false, ⟨(X.do_cd q run.world).2,
        run.calls ++ [Call.do_cd q] ++ [Call.getenv CDPATH]⟩, ?_, ?_, ?_, ?_,
        firstSuccess_attempts_initial _ _ _⟩
      · simp [cdResolve, attempt, hokf, hq, hcd, cdpathLoop, cdpathGuard, NUL]
      · simp [candidates, firstSuccess, hokf]
      · simp [candidates, firstSuccess, hokf, chdirCalls_append, chdirCalls]
      · simp [candidates, firstSuccess, hokf]
    | some cp =>
      obtain ⟨st', h1, h2, h3, h4⟩ := cdpathLoop_firstSuccess X q (cp.length + 1) cp
        ⟨(X.do_cd q run.world).2, run.calls ++ [Call.do_cd q] ++ [Call.getenv CDPATH]⟩
        (Nat.lt_succ_self _)
      refine ⟨st'.result, st'.run, ?_, ?_, ?_, ?_, firstSuccess_attempts_initial _ _ _⟩
      · simp [cdResolve, attempt, hokf, hq, hcd]
        exact ⟨st', by simpa using h1, rfl, rfl⟩
      · simpa [candidates, firstSuccess, hokf] using h2
      · rw [h3]
        simp [candidates, firstSuccess, hokf, chdirCalls_append, chdirCalls, chdirCalls_map_do_cd]
      · simpa [candidates, firstSuccess, hokf] using h4

theorem cdResolve_search_order_witness :
    charAt ['p'] 0 ≠ PATH_SEP ∧
    cdResolve exampleCollab ['p'] exampleRun
      = some (true, { world := exampleRun.world,
                      calls := [Call.do_cd ['p'], Call.getenv CDPATH,
                        Call.do_cd ['a', '/', 'p'], Call.do_cd ['b', '/', 'p']] }) ∧
    ∃ r run', cdResolve exampleCollab ['p'] exampleRun = some (r, run') ∧
      r = (firstSuccess exampleCollab.do_cd
        (candidates exampleCollab ['p'] (exampleCollab.getenv CDPATH)) exampleRun.world).1 ∧
      chdirCalls run'.calls = chdirCalls exampleRun.calls ++
        (firstSuccess exampleCollab.do_cd
          (candidates exampleCollab ['p'] (exampleCollab.getenv CDPATH)) exampleRun.world).2.1 ∧
      run'.world = (firstSuccess exampleCollab.do_cd
        (candidates exampleCollab ['p'] (exampleCollab.getenv CDPATH)) exampleRun.world).2.2 ∧
      (firstSuccess exampleCollab.do_cd
        (candidates exampleCollab ['p'] (exampleCollab.getenv CDPATH)) exampleRun.world).2.1
        <+: candidates exampleCollab ['p'] (exampleCollab.getenv CDPATH) :=
  ⟨by decide, by decide, cdResolve_search_order exampleCollab ['p'] exampleRun (by decide)⟩

/-- C5: a path that begins with the separator gets exactly one `do_cd` call
and CDPATH is not looked up, whatever that call returns; a relative path gets
the same single call when CDPATH is not set. -/
theorem cdResolve_single_attempt {σ : Type} (X : Collab σ) (q : List Char) (run : Run σ) :
    (charAt q 0 = PATH_SEP → cdResolve X q run = some (attempt X q run)) ∧
    (X.getenv CDPATH = none →
      ∃ run', cdResolve X q run = some ((attempt X q run).1, run') ∧
        run'.world = (attempt X q run).2.world ∧
        chdirCalls run'.calls = chdirCalls run.calls ++ [q]) := by
  constructor
  · intro hq
    simp [cdResolve, hq]
  · intro hcd
    by_cases hcond : charAt q 0 ≠ PATH_SEP ∧ (attempt X q run).1 = false
    · refine ⟨{ (attempt X q run).2 with
        calls := (attempt X q run).2.calls ++ [Call.getenv CDPATH] }, ?_, rfl, ?_⟩
      · simp only [cdResolve, if_pos hcond, hcd]
        simp [cdpathLoop, cdpathGuard, NUL]
      · simp [attempt, chdirCalls_append, chdirCalls]
    · refine ⟨(attempt X q run).2, ?_, rfl, ?_⟩
      · simp only [cdResolve, if_neg hcond]
      · simp [attempt, chdirCalls_append, chdirCalls]

theorem cdResolve_single_attempt_witness :
    (charAt ['/', 'n', 'o'] 0 = PATH_SEP ∧
      cdResolve exampleCollab ['/', 'n', 'o'] exampleRun
        = some (false, { world := exampleRun.world, calls := [Call.do_cd ['/', 'n', 'o']] })) ∧
    (exampleCollabNoCdpath.getenv CDPATH = none ∧
      ∃ run', cdResolve exampleCollabNoCdpath ['p'] exampleRun
          = some ((attempt exampleCollabNoCdpath ['p'] exampleRun).1, run') ∧
        run'.world = (attempt exampleCollabNoCdpath ['p'] exampleRun).2.world ∧
        chdirCalls run'.calls = chdirCalls exampleRun.calls ++ [['p']]) :=
  ⟨⟨by decide, (cdResolve_single_attempt exampleCollab ['/', 'n', 'o'] exampleRun).1 (by decide)⟩,
   ⟨rfl, (cdResolve_single_attempt exampleCollabNoCdpath ['p'] exampleRun).2 rfl⟩⟩

/-! ## `do_cd_command` in tree view -/

theorem dropWhile_append_all (f : Char → Bool) (A B : List Char) (hA : ∀ c ∈ A, f c = true) :
    (A ++ B).dropWhile f = B.dropWhile f := by
  induction A with
  | nil => rfl
  | cons a A ih =>
    have ha : f a = true := hA a (by simp)
    simp [List.dropWhile, ha]
    exact ih (fun c hc => hA c (List.mem_cons_of_mem _ hc))

theorem rdropWhile_append_trailing (l T : List Char) (hT : ∀ c ∈ T, isTrailing c = true) :
    (l ++ T).rdropWhile isTrailing = l.rdropWhile isTrailing := by
  simp only [List.rdropWhile, List.reverse_append]
  rw [dropWhile_append_all isTrailing T.reverse l.reverse (fun c hc => hT c (by simpa using hc))]

theorem cdCmd_bare (T : List Char) (hT : ∀ c ∈ T, isTrailing c = true) :
    cdCmd (['c', 'd'] ++ T) = ['c', 'd', ' '] := by
  have h : (['c', 'd'] : List Char).rdropWhile isTrailing = ['c', 'd'] := by decide
  simp only [cdCmd, rdropWhile_append_trailing _ T hT, h]
  decide

theorem cdCmd_dotdot (M T : List Char) (hT : ∀ c ∈ T, isTrailing c = true) :
    cdCmd (['c', 'd', ' '] ++ M ++ ['.', '.'] ++ T) = ['c', 'd', ' '] ++ M ++ ['.', '.'] := by
  have h : (['c', 'd', ' '] ++ M ++ ['.', '.']).rdropWhile isTrailing
      = ['c', 'd', ' '] ++ M ++ ['.', '.'] := by
    have e : ['c', 'd', ' '] ++ M ++ ['.', '.'] = (['c', 'd', ' '] ++ M ++ ['.']) ++ ['.'] := by
      simp
    rw [e, List.rdropWhile_concat_neg]
    decide
  simp only [cdCmd, rdropWhile_append_trailing _ T hT, h]
  simp [charAt, NUL]

theorem cdOperand_dotdot (M T : List Char) (hM : ∀ c ∈ M, isBlank c = true)
    (hT : ∀ c ∈ T, isTrailing c = true) :
    cdOperand (['c', 'd', ' '] ++ M ++ ['.', '.'] ++ T) = ['.', '.'] := by
  rw [cdOperand, cdCmd_dotdot M T hT]
  have : (['c', 'd', ' '] ++ M ++ ['.', '.']).drop 3 = M ++ ['.', '.'] := by simp
  rw [this, dropWhile_append_all isBlank M _ hM]
  decide

theorem dotdotLen_sep (P C : List Char) (hC : PATH_SEP ∉ C) :
    ∀ j : Nat, j ≤ C.length → dotdotLen (P ++ PATH_SEP :: C) (P.length + 1 + j) = P.length := by
  intro j
  induction j with
  | zero =>
    intro _
    have : charAt (P ++ PATH_SEP :: C) P.length = PATH_SEP := by
      rw [charAt_append_length]; simp [charAt]
    simp [dotdotLen, this]
  | succ j ih =>
    intro hj
    have hlt : j < C.length := hj
    have hch : charAt (P ++ PATH_SEP :: C) (P.length + 1 + j) = C[j] := by
      have e : P ++ PATH_SEP :: C = (P ++ [PATH_SEP]) ++ C := by simp
      have e2 : P.length + 1 + j = (P ++ [PATH_SEP]).length + j := by simp
      rw [e, e2]
      simp only [charAt, List.getD_eq_getElem?_getD]
      rw [List.getElem?_append_right (Nat.le_add_right _ _)]
      simp [hlt]
    have hne : C[j] ≠ PATH_SEP := fun e => hC (e ▸ List.getElem_mem hlt)
    have e3 : P.length + 1 + (j + 1) = (P.length + 1 + j) + 1 := by omega
    rw [e3, dotdotLen, hch, if_pos hne]
    exact ih (Nat.le_of_lt hlt)

theorem dotdotLen_no_sep (dir : List Char) (h : PATH_SEP ∉ dir) :
    ∀ len : Nat, len ≤ dir.length → dotdotLen dir len = 0 := by
  intro len
  induction len with
  | zero => intro _; rfl
  | succ n ih =>
    intro hn
    have hlt : n < dir.length := hn
    have hch : charAt dir n = dir[n] := by
      simp [charAt, List.getD_eq_getElem?_getD, hlt]
    have hne : dir[n] ≠ PATH_SEP := fun e => h (e ▸ List.getElem_mem hlt)
    rw [dotdotLen, hch, if_pos hne]
    exact ih (Nat.le_of_lt hlt)

/-- C8: in tree view a bare `cd`, with or without white space after it, does
not reach the branch that syncs to the home directory: `cmd[0]` is `c`, and
the tree is synced to the working directory joined with the empty operand. -/
theorem do_cd_command_tree_bare_cd {σ : Type} (X : Collab σ) (run : Run σ) (T : List Char)
    (hT : ∀ c ∈ T, isTrailing c = true) :
    do_cd_command X true (['c', 'd'] ++ T) run
      = some (syncTree X (X.concat_dir_and_file run.world.cwd []) run) := by
  have hcmd := cdCmd_bare T hT
  have hop : cdOperand (['c', 'd'] ++ T) = [] := by
    rw [cdOperand, hcmd]; decide
  have h0 : charAt ['c', 'd', ' '] 0 ≠ NUL := by decide
  have h1 : charAt ([] : List Char) 0 ≠ PATH_SEP := by decide
  have hl : ¬ (['c', 'd'] ++ T).length < 2 := by simp
  simp only [do_cd_command, if_neg hl, hcmd, hop, if_neg h0, if_neg h1]
  simp

theorem do_cd_command_tree_bare_cd_witness :
    (∀ c ∈ [' ', '\n'], isTrailing c = true) ∧
    do_cd_command exampleCollab true (['c', 'd'] ++ [' ', '\n']) exampleRun
      = some { world := exampleRun.world, calls := [Call.sync_tree ['/', 'x', '/', 'y', '/']] } :=
  ⟨by decide, do_cd_command_tree_bare_cd exampleCollab exampleRun [' ', '\n'] (by decide)⟩

/-- C9: in tree view `cd ..` cuts the working directory at its last separator
and calls `sync_tree` once, with what is left in front of it, or with the root
when nothing is left or when there is no separator at all. -/
theorem do_cd_command_tree_dotdot {σ : Type} (X : Collab σ) (run : Run σ)
    (M T P C : List Char) (hM : ∀ c ∈ M, isBlank c = true)
    (hT : ∀ c ∈ T, isTrailing c = true) (hC : PATH_SEP ∉ C) :
    (run.world.cwd = P ++ PATH_SEP :: C →
      do_cd_command X true (['c', 'd', ' '] ++ M ++ ['.', '.'] ++ T) run
        = some (syncTree X (if P ≠ [] then P else PATH_SEP_STR)
            { run with world := { run.world with cwd := P } })) ∧
    (PATH_SEP ∉ run.world.cwd →
      do_cd_command X true (['c', 'd', ' '] ++ M ++ ['.', '.'] ++ T) run
        = some (syncTree X PATH_SEP_STR { run with world := { run.world with cwd := [] } })) := by
  have hcmd := cdCmd_dotdot M T hT
  have hop := cdOperand_dotdot M T hM hT
  have h0 : charAt (['c', 'd', ' '] ++ M ++ ['.', '.']) 0 ≠ NUL := by simp [charAt, NUL]
  have hl : ¬ (['c', 'd', ' '] ++ M ++ ['.', '.'] ++ T).length < 2 := by simp
  constructor
  · intro hcwd
    have hlen : dotdotLen run.world.cwd run.world.cwd.length = P.length := by
      rw [hcwd]
      have e : (P ++ PATH_SEP :: C).length = P.length + 1 + C.length := by
        simp; omega
      rw [e]
      exact dotdotLen_sep P C hC C.length (Nat.le_refl _)
    simp only [do_cd_command, if_neg hl, hcmd, hop, if_neg h0, hlen]
    by_cases hP : P = []
    · simp [hP, hcwd]
    · have : P.length ≠ 0 := fun e => hP (List.length_eq_zero.mp e)
      simp [hP, hcwd, this]
  · intro hno
    have hlen := dotdotLen_no_sep run.world.cwd hno run.world.cwd.length (Nat.le_refl _)
    simp only [do_cd_command, if_neg hl, hcmd, hop, if_neg h0, hlen]
    simp

theorem do_cd_command_tree_dotdot_witness :
    (exampleRun.world.cwd = ['/', 'x'] ++ PATH_SEP :: ['y'] ∧
      do_cd_command exampleCollab true (['c', 'd', ' '] ++ [' ', '\t'] ++ ['.', '.'] ++ ['\n']) exampleRun
        = some { world := { cwd := ['/', 'x'], ext := () },
                 calls := [Call.sync_tree ['/', 'x']] }) ∧
    (({ world := { cwd := ['/', 'x'], ext := () }, calls := [] } : Run Unit).world.cwd
        = [] ++ PATH_SEP :: ['x'] ∧
      do_cd_command exampleCollab true (['c', 'd', ' '] ++ [] ++ ['.', '.'] ++ [])
          { world := { cwd := ['/', 'x'], ext := () }, calls := [] }
        = some { world := { cwd := [], ext := () }, calls := [Call.sync_tree ['/']] }) ∧
    (PATH_SEP ∉ ({ world := { cwd := ['x'], ext := () }, calls := [] } : Run Unit).world.cwd ∧
      do_cd_command exampleCollab true (['c', 'd', ' '] ++ [] ++ ['.', '.'] ++ [])
          { world := { cwd := ['x'], ext := () }, calls := [] }
        = some { world := { cwd := [], ext := () }, calls := [Call.sync_tree ['/']] }) :=
  ⟨⟨rfl, (do_cd_command_tree_dotdot exampleCollab exampleRun [' ', '\t'] ['\n'] ['/', 'x'] ['y']
      (by decide) (by decide) (by decide)).1 rfl⟩,
   ⟨rfl, (do_cd_command_tree_dotdot exampleCollab
      { world := { cwd := ['/', 'x'], ext := () }, calls := [] } [] [] [] ['x']
      (by decide) (by decide) (by decide)).1 rfl⟩,
   ⟨by decide, (do_cd_command_tree_dotdot exampleCollab
      { world := { cwd := ['x'], ext := () }, calls := [] } [] [] [] []
      (by decide) (by decide) (by decide)).2 (by decide)⟩⟩

/-! ## The working directory of the panel -/

theorem cdpathLoop_cwd {σ : Type} (X : Collab σ) (q : List Char)
    (hc : ∀ path w, (X.do_cd path w).2.cwd = w.cwd) :
    ∀ (fuel : Nat) (st st' : CdLoop σ), cdpathLoop X q fuel st = some st' →
      st'.run.world.cwd = st.run.world.cwd := by
  intro fuel
  induction fuel with
  | zero =>
    intro st st' h
    simp only [cdpathLoop] at h
    split at h
    · simp at h
    · simp at h; subst h; rfl
  | succ n ih =>
    intro st st' h
    simp only [cdpathLoop] at h
    split at h
    · rw [ih _ _ h]
      simp only [cdpathStep]
      split
      · simp [attempt, hc]
      · rfl
    · simp at h; subst h; rfl

theorem cdResolve_cwd {σ : Type} (X : Collab σ) (q : List Char) (run : Run σ)
    (hc : ∀ path w, (X.do_cd path w).2.cwd = w.cwd) (r : Bool) (run' : Run σ)
    (h : cdResolve X q run = some (r, run')) : run'.world.cwd = run.world.cwd := by
  simp only [cdResolve] at h
  split at h
  · simp only [Option.map_eq_some'] at h
    obtain ⟨st', hst', heq⟩ := h
    have := cdpathLoop_cwd X q hc _ _ _ hst'
    simp only [Prod.mk.injEq] at heq
    rw [← heq.2, this]
    simp [attempt, hc]
  · simp only [Option.some.injEq] at h
    have h2 : run' = (attempt X q run).2 := by rw [h]
    rw [h2]
    simp [attempt, hc]

theorem examine_cd_cwd {σ : Type} (X : Collab σ) (path0 : List Char) (run : Run σ)
    (hc : ∀ path w, (X.do_cd path w).2.cwd = w.cwd) (r : Bool) (run' : Run σ)
    (h : examine_cd X path0 run = some (r, run')) : run'.world.cwd = run.world.cwd := by
  simp only [examine_cd] at h
  split at h
  · simp at h
  · have := cdResolve_cwd X _ _ hc r run' h
    simpa using this

/-- C10, counterexample: with collaborators that leave the working
directory alone, `cd ..` in tree view at `/x/y` returns with
`current_panel->cwd` cut down to `/x` by `do_cd_command` itself. -/
theorem do_cd_command_mutates_cwd :
    (∀ path w, (exampleCollab.sync_tree path w).cwd = w.cwd) ∧
    (∀ path w, (exampleCollab.do_cd path w).2.cwd = w.cwd) ∧
    exampleRun.world.cwd = ['/', 'x', '/', 'y'] ∧
    (do_cd_command exampleCollab true ['c', 'd', ' ', '.', '.'] exampleRun).map
      (fun r => r.world.cwd) = some ['/', 'x'] :=
  ⟨fun _ _ => rfl, fun _ _ => rfl, rfl, by decide⟩

/-- C10 as amended: when the collaborators leave the working directory alone,
`do_cd_command` returns with `current_panel->cwd` unchanged, except in tree
view with operand `..`, where it has cut the string at its last separator. -/
theorem do_cd_command_cwd {σ : Type} (X : Collab σ) (tree : Bool) (orig_cmd : List Char)
    (run run' : Run σ)
    (hs : ∀ path w, (X.sync_tree path w).cwd = w.cwd)
    (hc : ∀ path w, (X.do_cd path w).2.cwd = w.cwd)
    (h : do_cd_command X tree orig_cmd run = some run') :
    run'.world.cwd =
      if tree = true ∧ charAt (cdCmd orig_cmd) 0 ≠ NUL ∧ cdOperand orig_cmd = ['.', '.'] then
        run.world.cwd.take (dotdotLen run.world.cwd run.world.cwd.length)
      else run.world.cwd := by
  simp only [do_cd_command] at h
  split at h
  · simp at h
  · cases tree with
    | true =>
      simp only [if_true] at h
      by_cases h0 : charAt (cdCmd orig_cmd) 0 = NUL
      · simp only [if_pos h0, Option.some.injEq] at h
        subst h
        simp [h0, syncTree, hs]
      · simp only [if_neg h0] at h
        by_cases hdd : cdOperand orig_cmd = ['.', '.']
        · simp only [if_pos hdd] at h
          split at h <;>
          · simp only [Option.some.injEq] at h
            subst h
            simp [h0, hdd, syncTree, hs]
        · simp only [if_neg hdd] at h
          split at h <;>
          · simp only [Option.some.injEq] at h
            subst h
            simp [hdd, syncTree, hs]
    | false =>
      simp only [Bool.false_eq_true, if_false] at h
      split at h
      · simp at h
      · next r run1 hex =>
        have := examine_cd_cwd X _ run hc r run1 hex
        split at h <;>
        · simp only [Option.some.injEq] at h
          subst h
          simp [this]

theorem do_cd_command_cwd_witness :
    (∀ path w, (exampleCollab.sync_tree path w).cwd = w.cwd) ∧
    (∀ path w, (exampleCollab.do_cd path w).2.cwd = w.cwd) ∧
    do_cd_command exampleCollab false ['c', 'd', ' ', '.', '.'] exampleRun
      = some { world := exampleRun.world,
               calls := [Call.do_cd ['.', '.'], Call.getenv CDPATH, Call.do_cd ['a', '/', '.', '.'],
                 Call.do_cd ['b', '/', '.', '.'], Call.do_cd ['c', '/', '.', '.'],
                 Call.message ['.', '.']] } ∧
    ({ world := exampleRun.world,
       calls := [Call.do_cd ['.', '.'], Call.getenv CDPATH, Call.do_cd ['a', '/', '.', '.'],
         Call.do_cd ['b', '/', '.', '.'], Call.do_cd ['c', '/', '.', '.'],
         Call.message ['.', '.']] } : Run Unit).world.cwd =
      if false = true ∧ charAt (cdCmd ['c', 'd', ' ', '.', '.']) 0 ≠ NUL ∧
          cdOperand ['c', 'd', ' ', '.', '.'] = ['.', '.'] then
        exampleRun.world.cwd.take (dotdotLen exampleRun.world.cwd exampleRun.world.cwd.length)
      else exampleRun.world.cwd :=
  ⟨fun _ _ => rfl, fun _ _ => rfl, by decide,
   do_cd_command_cwd exampleCollab false ['c', 'd', ' ', '.', '.'] exampleRun _
     (fun _ _ => rfl) (fun _ _ => rfl) (by decide)⟩

/-! ## Termination of the scan -/

theorem scanStep_out_room (maxlen : Nat) (getenv : List Char → Option (List Char))
    (st : ScanState) (hp : st.p ≠ []) :
    (scanStep maxlen getenv st).out.length + (scanStep maxlen getenv st).p.length
        ≤ st.out.length + st.p.length ∨
      (scanStep maxlen getenv st).out.length < maxlen := by
  have hlt := scanStep_length_lt maxlen getenv st hp
  obtain ⟨p, out, l, sk⟩ := st
  cases p with
  | nil => simp at hp
  | cons c rest =>
    by_cases hc : c ≠ '$' ∨ (charAt (c :: rest) 1 = '[' ∨ charAt (c :: rest) 1 = '(')
    · left
      simp only [scanStep, if_pos hc, List.length_append, List.length_cons, List.length_nil]
      omega
    · simp only [scanStep, if_neg hc] at hlt ⊢
      split
      · left
        by_cases hb : charAt rest 0 = '{'
        · have hrest := charAt_zero_eq (by decide) hb
          have hlen : 1 ≤ rest.length := by
            rw [hrest]; simp
          simp only [hb, decide_True, if_true, List.length_append, List.length_cons,
            List.length_nil, List.length_drop]
          simp
          omega
        · simp only [hb, decide_False, Bool.false_eq_true, if_false, List.length_append,
            List.length_cons, List.length_nil]
          simp
          omega
      · next t ht =>
        simp only [ht] at hlt
        by_cases hfit : out.length + t.length < maxlen
        · right
          simp [hfit]
        · left
          simp only [hfit, decide_False, Bool.false_eq_true, if_false]
          omega

theorem scanStepWrites_lt (maxlen n : Nat) (getenv : List Char → Option (List Char))
    (st : ScanState) (hg : scanGuard maxlen st = true) (hn : st.p.length ≤ n) :
    ∀ off ∈ scanStepWrites maxlen getenv st, off < n + maxlen := by
  obtain ⟨p, out, l, sk⟩ := st
  simp only [scanGuard, decide_eq_true_eq] at hg
  obtain ⟨hp, hroom⟩ := hg
  simp only at hp hroom hn
  cases p with
  | nil => simp at hp
  | cons c rest =>
    simp only [List.length_cons] at hn
    by_cases hc : c ≠ '$' ∨ (charAt (c :: rest) 1 = '[' ∨ charAt (c :: rest) 1 = '(')
    · intro off hoff
      simp only [scanStepWrites, if_pos hc, List.mem_singleton] at hoff
      omega
    · simp only [scanStepWrites, if_neg hc]
      split
      · intro off hoff
        simp only [List.mem_cons] at hoff
        rcases hoff with h | h
        · omega
        · split at h
          · simp at h
            omega
          · exact absurd h (List.not_mem_nil _)
      · next t ht =>
        intro off hoff
        split at hoff
        · simp only [List.mem_map, List.mem_range] at hoff
          obtain ⟨d, hd, rfl⟩ := hoff
          omega
        · simp at hoff

theorem scanLoopWrites_lt (maxlen n : Nat) (getenv : List Char → Option (List Char)) :
    ∀ (fuel : Nat) (st : ScanState), st.p.length ≤ fuel → st.p.length ≤ n →
      st.out.length + st.p.length < n + maxlen →
      ∃ ws st', scanLoopWrites maxlen getenv fuel st = some ws ∧
        scanLoop maxlen getenv fuel st = some st' ∧ st'.out.length ∈ ws ∧
        ∀ off ∈ ws, off < n + maxlen := by
  intro fuel
  induction fuel with
  | zero =>
    intro st hf hn hroom
    have hp : st.p = [] := List.length_eq_zero.mp (Nat.le_zero.mp hf)
    refine ⟨[st.out.length], st, by simp [scanLoopWrites, scanGuard, hp],
      by simp [scanLoop, scanGuard, hp], by simp, ?_⟩
    intro off hoff
    simp only [List.mem_singleton] at hoff
    omega
  | succ k ih =>
    intro st hf hn hroom
    by_cases hg : scanGuard maxlen st = true
    · have hp : st.p ≠ [] := by
        simp [scanGuard] at hg; exact hg.1
      have hlt := scanStep_length_lt maxlen getenv st hp
      have hroom' : (scanStep maxlen getenv st).out.length
          + (scanStep maxlen getenv st).p.length < n + maxlen := by
        rcases scanStep_out_room maxlen getenv st hp with h | h <;> omega
      obtain ⟨ws, st', hws, hst', hmem, hall⟩ :=
        ih (scanStep maxlen getenv st) (by omega) (by omega) hroom'
      refine ⟨scanStepWrites maxlen getenv st ++ ws, st', by simp [scanLoopWrites, hg, hws],
        by simp [scanLoop, hg, hst'], List.mem_append_right _ hmem, ?_⟩
      intro off hoff
      rcases List.mem_append.mp hoff with h | h
      · exact scanStepWrites_lt maxlen n getenv st hg hn off h
      · exact hall off h
    · refine ⟨[st.out.length], st, by simp [scanLoopWrites, hg], by simp [scanLoop, hg],
        by simp, ?_⟩
      intro off hoff
      simp only [List.mem_singleton] at hoff
      omega

/-- C17: with `MC_MAXPATHLEN` positive, every offset the variable expansion
writes to, that of the closing NUL included, is below the allocated size, the
length of the tilde-expanded path plus `MC_MAXPATHLEN`. -/
theorem varsubst_writes_in_bounds (maxlen : Nat) (getenv : List Char → Option (List Char))
    (input : List Char) (hpos : 0 < maxlen) :
    ∃ ws q, varsubstWrites maxlen getenv input = some ws ∧
      varsubst maxlen getenv input = some q ∧ q.length ∈ ws ∧
      ∀ off ∈ ws, off < input.length + maxlen := by
  obtain ⟨ws, st', hws, hst', hmem, hall⟩ :=
    scanLoopWrites_lt maxlen input.length getenv input.length (scanInit input)
      (by simp [scanInit]) (by simp [scanInit]) (by simp [scanInit]; omega)
  exact ⟨ws, st'.out, hws, by rw [varsubst, scanRun, hst']; rfl, hmem, hall⟩

theorem varsubst_writes_in_bounds_witness :
    0 < 4 ∧
    varsubstWrites 4 (fun _ => none) ['a', 'a', 'a', '$', '{', 'X', '}'] = some [0, 1, 2, 3, 4, 5] ∧
    ∃ ws q, varsubstWrites 4 (fun _ => none) ['a', 'a', 'a', '$', '{', 'X', '}'] = some ws ∧
      varsubst 4 (fun _ => none) ['a', 'a', 'a', '$', '{', 'X', '}'] = some q ∧ q.length ∈ ws ∧
      ∀ off ∈ ws, off < ['a', 'a', 'a', '$', '{', 'X', '}'].length + 4 :=
  ⟨by decide, by decide, varsubst_writes_in_bounds 4 (fun _ => none) _ (by decide)⟩

/-! ## The order of tilde expansion and variable substitution -/

theorem chdirCalls_map_getenv (names : List (List Char)) :
    chdirCalls (names.map Call.getenv) = [] := by
  induction names with
  | nil => rfl
  | cons x xs ih => simp [chdirCalls, ih]

theorem cdResolve_first_call {σ : Type} (X : Collab σ) (q : List Char) (run : Run σ) :
    ∃ r run' more, cdResolve X q run = some (r, run') ∧
      run'.calls = run.calls ++ Call.do_cd q :: more := by
  by_cases hcond : charAt q 0 ≠ PATH_SEP ∧ (attempt X q run).1 = false
  · cases hcd : X.getenv CDPATH with
    | none =>
      refine ⟨false, ⟨(X.do_cd q run.world).2,
        run.calls ++ [Call.do_cd q] ++ [Call.getenv CDPATH]⟩, [Call.getenv CDPATH], ?_, by simp⟩
      simp only [cdResolve, if_pos hcond, hcd]
      simp [cdpathLoop, cdpathGuard, NUL, attempt, hcond.2]
      exact hcond.2
    | some cp =>
      obtain ⟨st', h1, _, h3, _⟩ := cdpathLoop_firstSuccess X q (cp.length + 1) cp
        ⟨(X.do_cd q run.world).2, run.calls ++ [Call.do_cd q] ++ [Call.getenv CDPATH]⟩
        (Nat.lt_succ_self _)
      obtain ⟨T, hT⟩ : ∃ T, st'.run.calls
          = (run.calls ++ [Call.do_cd q] ++ [Call.getenv CDPATH]) ++ T := ⟨_, h3⟩
      refine ⟨st'.result, st'.run, Call.getenv CDPATH :: T, ?_, ?_⟩
      · simp only [cdResolve, if_pos hcond, hcd]
        have hf : (attempt X q run).1 = false := hcond.2
        simp only [hf]
        simp [attempt]
        exact ⟨st', by simpa using h1, rfl, rfl⟩
      · rw [hT]
        simp
  · exact ⟨(attempt X q run).1, (attempt X q run).2, [],
      by simp only [cdResolve, if_neg hcond], by simp [attempt]⟩

/-- C16: the first path `examine_cd` passes to `do_cd` is the variable
expansion of the tilde expansion of the unescaped operand; nothing is applied
to the result of the variable expansion. -/
theorem examine_cd_first_attempt {σ : Type} (X : Collab σ) (operand : List Char)
    (run : Run σ) :
    ∃ q r run' more,
      varsubst X.MC_MAXPATHLEN X.getenv
        (X.tilde_expand (X.strutils_shell_unescape operand)) = some q ∧
      examine_cd X operand run = some (r, run') ∧
      chdirCalls run'.calls = chdirCalls run.calls ++ q :: more := by
  obtain ⟨st, hst⟩ := scanLoop_total X.MC_MAXPATHLEN X.getenv
    (X.tilde_expand (X.strutils_shell_unescape operand)).length
    (scanInit (X.tilde_expand (X.strutils_shell_unescape operand))) (by simp [scanInit])
  obtain ⟨r, run', more, hres, hcalls⟩ := cdResolve_first_call X st.out
    { run with calls := run.calls ++ st.lookups.map Call.getenv }
  refine ⟨st.out, r, run', chdirCalls more, ?_, ?_, ?_⟩
  · rw [varsubst, scanRun, hst]; rfl
  · simp only [examine_cd, scanRun, hst]
    exact hres
  · rw [hcalls]
    simp [chdirCalls_append, chdirCalls_map_getenv, chdirCalls]

/-! ## Placeholder expansion -/

theorem shellCalls_append (a b : List Call) :
    shellCalls (a ++ b) = shellCalls a ++ shellCalls b := by
  induction a with
  | nil => rfl
  | cons x xs ih => cases x <;> simp [shellCalls, ih]

theorem drop_eq_charAt_cons (cmd : List Char) (i : Nat) (h : i < cmd.length) :
    cmd.drop i = charAt cmd i :: cmd.drop (i + 1) := by
  have : charAt cmd i = cmd[i] := by
    simp [charAt, List.getD_eq_getElem?_getD, h]
  rw [this]
  exact List.drop_eq_getElem_cons h

theorem charAt_length_le (cmd : List Char) (i : Nat) (h : cmd.length ≤ i) :
    charAt cmd i = NUL := by
  simp only [charAt, List.getD_eq_getElem?_getD]
  rw [List.getElem?_eq_none h]
  rfl

theorem expandRef_cons_other {σ : Type} (f : Char → World σ → List Char × World σ)
    (c : Char) (rest : List Char) (w : World σ) (hc : c ≠ '%') :
    expandRef f (c :: rest) w = (c :: (expandRef f rest w).1, (expandRef f rest w).2) := by
  cases rest <;> simp [expandRef, hc]

theorem fmtLoop_ref {σ : Type} (H : Host σ) (cmd : List Char) :
    ∀ (fuel : Nat) (st : FmtState σ), cmd.length ≤ st.i + fuel → st.j = st.command.length →
      ∃ st', fmtLoop H cmd fuel st = some st' ∧
        st'.command = st.command ++ (expandRef H.expand_format (cmd.drop st.i) st.run.world).1 ∧
        st'.run.world = (expandRef H.expand_format (cmd.drop st.i) st.run.world).2 ∧
        shellCalls st'.run.calls = shellCalls st.run.calls := by
  intro fuel
  induction fuel with
  | zero =>
    intro st hf _
    have hi : ¬ st.i < cmd.length := by omega
    refine ⟨st, by simp [fmtLoop, hi], ?_, ?_, rfl⟩
    · rw [List.drop_eq_nil_of_le (by omega)]; simp [expandRef]
    · rw [List.drop_eq_nil_of_le (by omega)]; simp [expandRef]
  | succ n ih =>
    intro st hf hj
    by_cases hi : st.i < cmd.length
    · simp only [fmtLoop, if_pos hi]
      have hdrop := drop_eq_charAt_cons cmd st.i hi
      by_cases hc : charAt cmd st.i = '%'
      · have e1 : (fmtStep H cmd st).i = st.i + 1 + 1 := by simp only [fmtStep, if_pos hc]
        have e2 : (fmtStep H cmd st).j = (fmtStep H cmd st).command.length := by
          simp only [fmtStep, if_pos hc]
        have e3 : (fmtStep H cmd st).command = st.command
            ++ (H.expand_format (charAt cmd (st.i + 1)) st.run.world).1 := by
          simp only [fmtStep, if_pos hc, hj, List.take_length]
        have e4 : (fmtStep H cmd st).run.world
            = (H.expand_format (charAt cmd (st.i + 1)) st.run.world).2 := by
          simp only [fmtStep, if_pos hc]
        have e5 : (fmtStep H cmd st).run.calls
            = st.run.calls ++ [Call.expand_format (charAt cmd (st.i + 1))] := by
          simp only [fmtStep, if_pos hc]
        obtain ⟨st', h1, h2, h3, h4⟩ := ih (fmtStep H cmd st) (by rw [e1]; omega) e2
        rw [e1, e3, e4] at h2
        rw [e1, e4] at h3
        rw [e5] at h4
        refine ⟨st', h1, ?_, ?_, ?_⟩
        · rw [h2, hdrop, hc]
          by_cases hi1 : st.i + 1 < cmd.length
          · rw [drop_eq_charAt_cons cmd (st.i + 1) hi1]
            simp [expandRef]
          · rw [List.drop_eq_nil_of_le (by omega), List.drop_eq_nil_of_le (by omega),
              charAt_length_le cmd (st.i + 1) (by omega)]
            simp [expandRef]
        · rw [h3, hdrop, hc]
          by_cases hi1 : st.i + 1 < cmd.length
          · rw [drop_eq_charAt_cons cmd (st.i + 1) hi1]
            simp [expandRef]
          · rw [List.drop_eq_nil_of_le (by omega), List.drop_eq_nil_of_le (by omega),
              charAt_length_le cmd (st.i + 1) (by omega)]
            simp [expandRef]
        · rw [h4]
          simp [shellCalls_append, shellCalls]
      · have e1 : (fmtStep H cmd st).i = st.i + 1 := by simp only [fmtStep, if_neg hc]
        have e3 : (fmtStep H cmd st).command = st.command ++ [charAt cmd st.i] := by
          simp only [fmtStep, if_neg hc, hj, List.take_length]
        have e2 : (fmtStep H cmd st).j = (fmtStep H cmd st).command.length := by
          rw [e3]
          simp only [fmtStep, if_neg hc, hj, List.length_append, List.length_singleton]
        have e4 : (fmtStep H cmd st).run = st.run := by simp only [fmtStep, if_neg hc]
        obtain ⟨st', h1, h2, h3, h4⟩ := ih (fmtStep H cmd st) (by rw [e1]; omega) e2
        rw [e1, e3, e4] at h2
        rw [e1, e4] at h3
        rw [e4] at h4
        refine ⟨st', h1, ?_, ?_, h4⟩
        · rw [h2, hdrop, expandRef_cons_other _ _ _ _ hc]
          simp
        · rw [h3, hdrop, expandRef_cons_other _ _ _ _ hc]
    · refine ⟨st, by simp [fmtLoop, hi], ?_, ?_, rfl⟩
      · rw [List.drop_eq_nil_of_le (by omega)]; simp [expandRef]
      · rw [List.drop_eq_nil_of_le (by omega)]; simp [expandRef]

theorem expandRef_no_percent {σ : Type} (f : Char → World σ → List Char × World σ) :
    ∀ (cmd : List Char) (w : World σ), '%' ∉ cmd → expandRef f cmd w = (cmd, w) := by
  intro cmd
  induction cmd with
  | nil => intro w _; rfl
  | cons c rest ih =>
    intro w h
    have hc : c ≠ '%' := fun e => h (by simp [e])
    have hr : '%' ∉ rest := fun e => h (List.mem_cons_of_mem _ e)
    rw [expandRef_cons_other _ _ _ _ hc, ih w hr]

theorem expandRef_trailing {σ : Type} (f : Char → World σ → List Char × World σ) :
    ∀ (A : List Char) (w : World σ), '%' ∉ A →
      expandRef f (A ++ ['%']) w = (A ++ (f NUL w).1, (f NUL w).2) := by
  intro A
  induction A with
  | nil => intro w _; simp [expandRef]
  | cons c rest ih =>
    intro w h
    have hc : c ≠ '%' := fun e => h (by simp [e])
    have hr : '%' ∉ rest := fun e => h (List.mem_cons_of_mem _ e)
    rw [List.cons_append, expandRef_cons_other _ _ _ _ hc, ih w hr]
    simp

theorem shellCalls_enterLoadPrompt {σ : Type} (H : Host σ) (run : Run σ) :
    shellCalls (enterLoadPrompt H run).calls = shellCalls run.calls := by
  unfold enterLoadPrompt
  split <;> simp [shellCalls_append, shellCalls]

theorem shellCalls_enterAfterShell {σ : Type} (H : Host σ) (run : Run σ) :
    shellCalls (enterAfterShell H run).calls = shellCalls run.calls := by
  unfold enterAfterShell
  split
  · split
    · simp [askQuit, shellCalls_append, shellCalls]
    · rw [shellCalls_enterLoadPrompt]
      split <;> simp [askQuit, shellCalls_append, shellCalls]
  · exact shellCalls_enterLoadPrompt H run

/-- C13: the only command the last block of `enter` passes to `shell_execute`
is the left-to-right expansion in which each `%` and the character after it
are replaced by the formatter's result for that character and every other
character is kept; it is passed once unless the command is refused, and a
command without `%` is passed as it is. -/
theorem enter_placeholder_expansion {σ : Type} (H : Host σ) (lc : WInput) (cmd : List Char)
    (run : Run σ) :
    ∃ res, enterGeneric H lc cmd run = some res ∧
      (shellCalls res.run.calls
          = shellCalls run.calls ++ [(expandRef H.expand_format cmd run.world).1]
        ∨ shellCalls res.run.calls = shellCalls run.calls) ∧
      (H.vfs_current_is_local run.world = true →
        ¬ (H.HAVE_SUBSHELL_SUPPORT = true ∧ H.use_subshell run.world = true
          ∧ H.subshell_inactive run.world = false) →
        shellCalls res.run.calls
          = shellCalls run.calls ++ [(expandRef H.expand_format cmd run.world).1]) ∧
      ('%' ∉ cmd → (expandRef H.expand_format cmd run.world).1 = cmd) := by
  obtain ⟨st, hst, hcmd, _, hcalls⟩ := fmtLoop_ref H cmd cmd.length (fmtInit cmd run)
    (by simp [fmtInit]) (by simp [fmtInit])
  simp only [fmtInit, List.drop_zero, List.nil_append] at hcmd hcalls
  have hno : '%' ∉ cmd → (expandRef H.expand_format cmd run.world).1 = cmd := by
    intro h
    rw [expandRef_no_percent H.expand_format cmd run.world h]
  by_cases hl : H.vfs_current_is_local run.world = false
  · refine ⟨⟨cb_ret_t.MSG_NOT_HANDLED, lc, logCall (Call.message MSG_NON_LOCAL) run,
      EnterPath.generic⟩, by simp only [enterGeneric, if_pos hl], Or.inr ?_, ?_, hno⟩
    · simp [logCall, shellCalls_append, shellCalls]
    · intro h
      rw [hl] at h
      cases h
  · by_cases hb : H.HAVE_SUBSHELL_SUPPORT = true ∧ H.use_subshell run.world = true
        ∧ H.subshell_inactive run.world = false
    · refine ⟨⟨cb_ret_t.MSG_NOT_HANDLED, lc, logCall (Call.message MSG_SHELL_BUSY) run,
        EnterPath.generic⟩, by simp only [enterGeneric, if_neg hl, if_pos hb], Or.inr ?_, ?_, hno⟩
      · simp [logCall, shellCalls_append, shellCalls]
      · intro _ h
        exact absurd hb h
    · have key : ∃ res, enterGeneric H lc cmd run = some res ∧
          shellCalls res.run.calls
            = shellCalls run.calls ++ [(expandRef H.expand_format cmd run.world).1] := by
        simp only [enterGeneric, if_neg hl, if_neg hb, hst]
        refine ⟨_, rfl, ?_⟩
        simp only
        split
        · rw [shellCalls_enterAfterShell]
          simp [logCall, shellCalls_append, shellCalls, hcalls, hcmd]
        · simp [logCall, shellCalls_append, shellCalls, hcalls, hcmd]
      obtain ⟨res, h1, h2⟩ := key
      exact ⟨res, h1, Or.inl h2, fun _ _ => h2, hno⟩

theorem enter_placeholder_expansion_witness :
    (exampleHost.vfs_current_is_local exampleRun.world = true) ∧
    ¬ (exampleHost.HAVE_SUBSHELL_SUPPORT = true ∧ exampleHost.use_subshell exampleRun.world = true
      ∧ exampleHost.subshell_inactive exampleRun.world = false) ∧
    (expandRef exampleHost.expand_format ['l', 's', ' ', '%', 'd', ' ', '%', '%'] exampleRun.world).1
      = ['l', 's', ' ', '/', 'x', '/', 'y', ' ', '%'] ∧
    ∃ res, enterGeneric exampleHost ⟨[' ', 'l', 's', ' ', '%', 'd', ' ', '%', '%'], 0⟩
        ['l', 's', ' ', '%', 'd', ' ', '%', '%'] exampleRun = some res ∧
      shellCalls res.run.calls = shellCalls exampleRun.calls ++
        [(expandRef exampleHost.expand_format ['l', 's', ' ', '%', 'd', ' ', '%', '%']
          exampleRun.world).1] :=
  ⟨rfl, by decide, by decide,
   (enter_placeholder_expansion exampleHost ⟨[' ', 'l', 's', ' ', '%', 'd', ' ', '%', '%'], 0⟩
      ['l', 's', ' ', '%', 'd', ' ', '%', '%'] exampleRun).elim
     (fun res h => ⟨res, h.1, h.2.2.1 rfl (by decide)⟩)⟩

/-! ## The buffer accesses of placeholder expansion -/

theorem fmtStep_bounds {σ : Type} (H : Host σ) (cmd : List Char) (st : FmtState σ)
    (hi : st.i < cmd.length) (hcap : st.j + (cmd.length - st.i) + 1 ≤ st.cap)
    (hr : ∀ r ∈ st.reads, r ≤ cmd.length) (hw : ∀ w ∈ st.writes, w.1 < w.2) :
    ((fmtStep H cmd st).i ≤ cmd.length →
      (fmtStep H cmd st).j + (cmd.length - (fmtStep H cmd st).i) + 1 ≤ (fmtStep H cmd st).cap) ∧
    st.i < (fmtStep H cmd st).i ∧
    (∀ r ∈ (fmtStep H cmd st).reads, r ≤ cmd.length) ∧
    (∀ w ∈ (fmtStep H cmd st).writes, w.1 < w.2) := by
  by_cases hc : charAt cmd st.i = '%'
  · have hlen : (st.command.take st.j
        ++ (H.expand_format (charAt cmd (st.i + 1)) st.run.world).1).length
        ≤ st.j + (H.expand_format (charAt cmd (st.i + 1)) st.run.world).1.length := by
      simp only [List.length_append, List.length_take]
      omega
    simp only [fmtStep, if_pos hc]
    refine ⟨fun _ => by omega, by omega, ?_, ?_⟩
    · intro r hrm
      simp only [List.mem_append, List.mem_cons, List.mem_singleton, List.not_mem_nil,
        or_false] at hrm
      rcases hrm with h | h | h
      · exact hr r h
      · omega
      · omega
    · intro w hwm
      simp only [List.mem_append, List.mem_map, List.mem_range, List.mem_singleton] at hwm
      rcases hwm with (h | ⟨d, hd, rfl⟩) | rfl
      · exact hw w h
      · simp only; omega
      · simp only; omega
  · simp only [fmtStep, if_neg hc]
    refine ⟨fun _ => by omega, by omega, ?_, ?_⟩
    · intro r hrm
      simp only [List.mem_append, List.mem_cons, List.mem_singleton, List.not_mem_nil,
        or_false] at hrm
      rcases hrm with h | h | h
      · exact hr r h
      · omega
      · omega
    · intro w hwm
      simp only [List.mem_append, List.mem_cons, List.mem_singleton, List.not_mem_nil,
        or_false] at hwm
      rcases hwm with h | rfl | rfl
      · exact hw w h
      · simp only; omega
      · simp only; omega

theorem fmtLoop_bounds {σ : Type} (H : Host σ) (cmd : List Char) :
    ∀ (fuel : Nat) (st : FmtState σ), cmd.length ≤ st.i + fuel →
      (st.i ≤ cmd.length → st.j + (cmd.length - st.i) + 1 ≤ st.cap) →
      (∀ r ∈ st.reads, r ≤ cmd.length) → (∀ w ∈ st.writes, w.1 < w.2) →
      ∃ st', fmtLoop H cmd fuel st = some st' ∧
        (∀ r ∈ st'.reads, r ≤ cmd.length) ∧ (∀ w ∈ st'.writes, w.1 < w.2) := by
  intro fuel
  induction fuel with
  | zero =>
    intro st hf _ hr hw
    have hi : ¬ st.i < cmd.length := by omega
    exact ⟨st, by simp [fmtLoop, hi], hr, hw⟩
  | succ n ih =>
    intro st hf hcap hr hw
    by_cases hi : st.i < cmd.length
    · obtain ⟨h1, h2, h3, h4⟩ := fmtStep_bounds H cmd st hi (hcap (Nat.le_of_lt hi)) hr hw
      obtain ⟨st', hst', hr', hw'⟩ := ih (fmtStep H cmd st) (by omega) h1 h3 h4
      exact ⟨st', by simp only [fmtLoop, if_pos hi, hst'], hr', hw'⟩
    · exact ⟨st, by simp [fmtLoop, hi], hr, hw⟩

/-- C18: the placeholder loop reads the command at no index above its length,
and every index of the output it writes, each closing NUL included, is below
the size the output buffer has at that moment; a `%` at the very end makes the
formatter receive the terminating NUL. -/
theorem fmtLoop_in_bounds {σ : Type} (H : Host σ) (cmd : List Char) (run : Run σ) :
    ∃ st, fmtLoop H cmd cmd.length (fmtInit cmd run) = some st ∧
      (∀ r ∈ st.reads, r ≤ cmd.length) ∧
      (∀ w ∈ st.writes, w.1 < w.2) ∧
      (∀ A : List Char, '%' ∉ A → cmd = A ++ ['%'] →
        st.command = A ++ (H.expand_format NUL run.world).1) := by
  obtain ⟨st, hst, hr, hw⟩ := fmtLoop_bounds H cmd cmd.length (fmtInit cmd run)
    (by simp [fmtInit]) (by simp [fmtInit]) (by simp [fmtInit]) (by simp [fmtInit])
  obtain ⟨st2, hst2, hcmd, _, _⟩ := fmtLoop_ref H cmd cmd.length (fmtInit cmd run)
    (by simp [fmtInit]) (by simp [fmtInit])
  rw [hst] at hst2
  simp only [Option.some.injEq] at hst2
  subst hst2
  refine ⟨st, hst, hr, hw, ?_⟩
  intro A hA hcmdA
  rw [hcmd]
  simp only [fmtInit, List.drop_zero, List.nil_append]
  rw [hcmdA, expandRef_trailing H.expand_format A run.world hA]

theorem fmtLoop_in_bounds_witness :
    '%' ∉ ['a'] ∧ ['a', '%'] = ['a'] ++ ['%'] ∧
    (fmtLoop exampleHost ['a', '%'] 2 (fmtInit ['a', '%'] exampleRun)).map
        (fun st => (st.command, st.reads, st.writes))
      = some (['a', '%'], [0, 0, 1, 2], [(0, 3), (0, 3), (1, 3), (1, 3), (2, 3), (2, 3)]) ∧
    ∃ st, fmtLoop exampleHost ['a', '%'] ['a', '%'].length (fmtInit ['a', '%'] exampleRun)
        = some st ∧
      (∀ r ∈ st.reads, r ≤ ['a', '%'].length) ∧
      (∀ w ∈ st.writes, w.1 < w.2) ∧
      (∀ A : List Char, '%' ∉ A → ['a', '%'] = A ++ ['%'] →
        st.command = A ++ (exampleHost.expand_format NUL exampleRun.world).1) :=
  ⟨by decide, rfl, by decide, fmtLoop_in_bounds exampleHost ['a', '%'] exampleRun⟩

/-! ## The classification of the line by `enter` -/

theorem examine_cd_total {σ : Type} (X : Collab σ) (operand : List Char) (run : Run σ) :
    ∃ res, examine_cd X operand run = some res := by
  obtain ⟨st, hst⟩ := scanLoop_total X.MC_MAXPATHLEN X.getenv
    (X.tilde_expand (X.strutils_shell_unescape operand)).length
    (scanInit (X.tilde_expand (X.strutils_shell_unescape operand))) (by simp [scanInit])
  obtain ⟨r, run', _, hres, _⟩ := cdResolve_first_call X st.out
    { run with calls := run.calls ++ st.lookups.map Call.getenv }
  exact ⟨(r, run'), by simp only [examine_cd, scanRun, hst]; exact hres⟩

theorem do_cd_command_total {σ : Type} (X : Collab σ) (tree : Bool) (cmd : List Char)
    (run : Run σ) (h : 2 ≤ cmd.length) : ∃ run', do_cd_command X tree cmd run = some run' := by
  have hl : ¬ cmd.length < 2 := by omega
  simp only [do_cd_command, if_neg hl]
  cases tree with
  | true =>
    simp only [if_true]
    split
    · exact ⟨_, rfl⟩
    · split
      · split <;> exact ⟨_, rfl⟩
      · split <;> exact ⟨_, rfl⟩
  | false =>
    simp only [Bool.false_eq_true, if_false]
    obtain ⟨res, hres⟩ := examine_cd_total X (cdOperand cmd) run
    rw [hres]
    simp only
    split <;> exact ⟨_, rfl⟩

theorem enterGeneric_total {σ : Type} (H : Host σ) (lc : WInput) (cmd : List Char)
    (run : Run σ) :
    ∃ res, enterGeneric H lc cmd run = some res ∧ res.path = EnterPath.generic := by
  obtain ⟨st, hst, _⟩ := fmtLoop_ref H cmd cmd.length (fmtInit cmd run)
    (by simp [fmtInit]) (by simp [fmtInit])
  simp only [enterGeneric, hst]
  split
  · exact ⟨_, rfl, rfl⟩
  · split <;> exact ⟨_, rfl, rfl⟩

theorem classifyLine_cases (R : List Char) :
    (classifyLine R = EnterPath.blank ↔ R = []) ∧
    (classifyLine R = EnterPath.changeDir ↔ (['c', 'd', ' '] <+: R ∨ R = ['c', 'd'])) ∧
    (classifyLine R = EnterPath.quitRequest ↔ R = ['e', 'x', 'i', 't']) ∧
    (classifyLine R = EnterPath.generic ↔
      (R ≠ [] ∧ ¬ (['c', 'd', ' '] <+: R ∨ R = ['c', 'd']) ∧ R ≠ ['e', 'x', 'i', 't'])) := by
  by_cases h0 : R = []
  · subst h0
    simp [classifyLine]
  · by_cases hcd : ['c', 'd', ' '] <+: R ∨ R = ['c', 'd']
    · have hne : R ≠ ['e', 'x', 'i', 't'] := by
        rintro rfl
        revert hcd
        decide
      simp [classifyLine, h0, hcd, hne]
    · by_cases hex : R = ['e', 'x', 'i', 't']
      · simp [classifyLine, hex]
      · simp [classifyLine, h0, hcd, hex]

theorem take_three_iff (R : List Char) :
    R.take 3 = ['c', 'd', ' '] ↔ ['c', 'd', ' '] <+: R := by
  rw [List.prefix_iff_eq_take]
  simp only [List.length_cons, List.length_nil]
  exact eq_comm

/-- C12: with the command prompt shown, `enter` takes exactly one of four
ways, fixed by the line `R` left after the leading white space: the no-op for
an empty `R`, `do_cd_command` and `input_clean` for `cd ` in front or `cd`
alone, the quit request for `exit`, and the generic command for the rest. -/
theorem enter_classification {σ : Type} (H : Host σ) (X : Collab σ) (lc : WInput)
    (run : Run σ) (hprompt : H.command_prompt = true) :
    ∃ res, enter H X lc run = some res ∧
      res.path = classifyLine (lc.buffer.dropWhile isLeading) ∧
      (res.path = EnterPath.blank ↔ lc.buffer.dropWhile isLeading = []) ∧
      (res.path = EnterPath.changeDir ↔
        (['c', 'd', ' '] <+: lc.buffer.dropWhile isLeading
          ∨ lc.buffer.dropWhile isLeading = ['c', 'd'])) ∧
      (res.path = EnterPath.quitRequest ↔ lc.buffer.dropWhile isLeading = ['e', 'x', 'i', 't']) ∧
      (res.path = EnterPath.generic ↔
        (lc.buffer.dropWhile isLeading ≠ [] ∧
          ¬ (['c', 'd', ' '] <+: lc.buffer.dropWhile isLeading
            ∨ lc.buffer.dropWhile isLeading = ['c', 'd']) ∧
          lc.buffer.dropWhile isLeading ≠ ['e', 'x', 'i', 't'])) ∧
      (res.path = EnterPath.blank →
        res.ret = cb_ret_t.MSG_HANDLED ∧ res.input = lc ∧ res.run = run) ∧
      (res.path = EnterPath.changeDir →
        res.ret = cb_ret_t.MSG_HANDLED ∧ res.input = input_clean lc ∧
        ∃ run1, do_cd_command X (H.view_tree run.world) (lc.buffer.dropWhile isLeading)
            (logCall Call.do_cd_command run) = some run1 ∧
          res.run = logCall Call.input_clean run1) ∧
      (res.path = EnterPath.quitRequest →
        res.input = input_assign_text lc [] ∧
        res.run = (askQuit H (logCall (Call.input_assign_text []) run)).2) ∧
      (res.path = EnterPath.generic →
        enterGeneric H lc (lc.buffer.dropWhile isLeading) run = some res) := by
  have hp : ¬ (H.command_prompt = false) := by simp [hprompt]
  have hcl := classifyLine_cases (lc.buffer.dropWhile isLeading)
  have key : ∃ res, enter H X lc run = some res ∧
      res.path = classifyLine (lc.buffer.dropWhile isLeading) ∧
      (res.path = EnterPath.blank →
        res.ret = cb_ret_t.MSG_HANDLED ∧ res.input = lc ∧ res.run = run) ∧
      (res.path = EnterPath.changeDir →
        res.ret = cb_ret_t.MSG_HANDLED ∧ res.input = input_clean lc ∧
        ∃ run1, do_cd_command X (H.view_tree run.world) (lc.buffer.dropWhile isLeading)
            (logCall Call.do_cd_command run) = some run1 ∧
          res.run = logCall Call.input_clean run1) ∧
      (res.path = EnterPath.quitRequest →
        res.input = input_assign_text lc [] ∧
        res.run = (askQuit H (logCall (Call.input_assign_text []) run)).2) ∧
      (res.path = EnterPath.generic →
        enterGeneric H lc (lc.buffer.dropWhile isLeading) run = some res) := by
    simp only [enter, if_neg hp]
    by_cases h0 : lc.buffer.dropWhile isLeading = []
    · simp only [if_pos h0]
      refine ⟨_, rfl, ?_, ?_, ?_, ?_, ?_⟩
      · exact (hcl.1.mpr h0).symm
      · intro _; exact ⟨rfl, rfl, rfl⟩
      · intro h; cases h
      · intro h; cases h
      · intro h; cases h
    · simp only [if_neg h0]
      by_cases hcd : (lc.buffer.dropWhile isLeading).take 3 = ['c', 'd', ' ']
          ∨ lc.buffer.dropWhile isLeading = ['c', 'd']
      · have hcd' : ['c', 'd', ' '] <+: lc.buffer.dropWhile isLeading
            ∨ lc.buffer.dropWhile isLeading = ['c', 'd'] :=
          hcd.imp (take_three_iff _).mp id
        have hlen : 2 ≤ (lc.buffer.dropWhile isLeading).length := by
          rcases hcd with h | h
          · have := congrArg List.length h
            simp only [List.length_take, List.length_cons, List.length_nil] at this
            omega
          · rw [h]; simp
        obtain ⟨run1, hrun1⟩ := do_cd_command_total X (H.view_tree run.world)
          (lc.buffer.dropWhile isLeading) (logCall Call.do_cd_command run) hlen
        simp only [if_pos hcd, hrun1]
        refine ⟨_, rfl, ?_, ?_, ?_, ?_, ?_⟩
        · exact (hcl.2.1.mpr hcd').symm
        · intro h; cases h
        · intro _; exact ⟨rfl, rfl, run1, rfl, rfl⟩
        · intro h; cases h
        · intro h; cases h
      · have hcd' : ¬ (['c', 'd', ' '] <+: lc.buffer.dropWhile isLeading
            ∨ lc.buffer.dropWhile isLeading = ['c', 'd']) :=
          fun h => hcd (h.imp (take_three_iff _).mpr id)
        simp only [if_neg hcd]
        by_cases hex : lc.buffer.dropWhile isLeading = ['e', 'x', 'i', 't']
        · simp only [if_pos hex]
          refine ⟨_, rfl, ?_, ?_, ?_, ?_, ?_⟩
          · exact (hcl.2.2.1.mpr hex).symm
          · intro h; cases h
          · intro h; cases h
          · intro _; exact ⟨rfl, rfl⟩
          · intro h; cases h
        · simp only [if_neg hex]
          obtain ⟨res, hres, hpath⟩ := enterGeneric_total H lc (lc.buffer.dropWhile isLeading) run
          refine ⟨res, hres, ?_, ?_, ?_, ?_, ?_⟩
          · rw [hpath]; exact (hcl.2.2.2.mpr ⟨h0, hcd', hex⟩).symm
          · intro h; rw [hpath] at h; cases h
          · intro h; rw [hpath] at h; cases h
          · intro h; rw [hpath] at h; cases h
          · intro _; exact hres
  obtain ⟨res, h1, h2, h3, h4, h5, h6⟩ := key
  refine ⟨res, h1, h2, ?_, ?_, ?_, ?_, h3, h4, h5, h6⟩
  · rw [h2]; exact hcl.1
  · rw [h2]; exact hcl.2.1
  · rw [h2]; exact hcl.2.2.1
  · rw [h2]; exact hcl.2.2.2

theorem enter_classification_witness :
    exampleHost.command_prompt = true ∧
    classifyLine ['c', 'd', 'x'] = EnterPath.generic ∧
    classifyLine ['c', 'd', '\t', '/', 't', 'm', 'p'] = EnterPath.generic ∧
    classifyLine ['e', 'x', 'i', 't', ' '] = EnterPath.generic ∧
    (∃ res, enter exampleHost exampleCollab ⟨[' ', 'c', 'd', 'x'], 0⟩ exampleRun = some res ∧
      res.path = EnterPath.generic) ∧
    (∃ res, enter exampleHost exampleCollab ⟨['\n', 'e', 'x', 'i', 't'], 0⟩ exampleRun = some res ∧
      res.path = EnterPath.quitRequest) :=
  ⟨rfl, by decide, by decide, by decide,
   (enter_classification exampleHost exampleCollab ⟨[' ', 'c', 'd', 'x'], 0⟩ exampleRun rfl).elim
     (fun res h => ⟨res, h.1, h.2.1.trans (by decide)⟩),
   (enter_classification exampleHost exampleCollab ⟨['\n', 'e', 'x', 'i', 't'], 0⟩ exampleRun
     rfl).elim (fun res h => ⟨res, h.1, h.2.1.trans (by decide)⟩)⟩

/-! ## Refused commands and the quit request -/

/-- C14, counterexample: with the command prompt switched off, `enter` leaves
at line 189 and returns `MSG_HANDLED` for the generic line `ls` although the
file system is not local. -/
theorem enter_refused_needs_prompt :
    exampleHostRemoteNoPrompt.vfs_current_is_local exampleRun.world = false ∧
    classifyLine (['l', 's'].dropWhile isLeading) = EnterPath.generic ∧
    (enter exampleHostRemoteNoPrompt exampleCollab ⟨['l', 's'], 0⟩ exampleRun).map
      (fun r => (r.ret, r.input, r.run))
      = some (cb_ret_t.MSG_HANDLED, ⟨['l', 's'], 0⟩, exampleRun) := by
  decide

/-- C14 as amended: with the command prompt shown, a generic line is refused
when the file system is not local, or when subshell support is compiled in,
the subshell is in use and its state is not `INACTIVE`: `enter` returns
`MSG_NOT_HANDLED`, its only call is `message`, and the input line is left as
it was. -/
theorem enter_refused {σ : Type} (H : Host σ) (X : Collab σ) (lc : WInput) (run : Run σ)
    (hprompt : H.command_prompt = true)
    (hne : lc.buffer.dropWhile isLeading ≠ [])
    (hcd : ¬ (['c', 'd', ' '] <+: lc.buffer.dropWhile isLeading
      ∨ lc.buffer.dropWhile isLeading = ['c', 'd']))
    (hex : lc.buffer.dropWhile isLeading ≠ ['e', 'x', 'i', 't'])
    (href : H.vfs_current_is_local run.world = false ∨
      (H.HAVE_SUBSHELL_SUPPORT = true ∧ H.use_subshell run.world = true
        ∧ H.subshell_inactive run.world = false)) :
    ∃ res, enter H X lc run = some res ∧
      res.ret = cb_ret_t.MSG_NOT_HANDLED ∧ res.input = lc ∧ res.run.world = run.world ∧
      (res.run.calls = run.calls ++ [Call.message MSG_NON_LOCAL]
        ∨ res.run.calls = run.calls ++ [Call.message MSG_SHELL_BUSY]) := by
  have hp : ¬ (H.command_prompt = false) := by simp [hprompt]
  have hcd' : ¬ ((lc.buffer.dropWhile isLeading).take 3 = ['c', 'd', ' ']
      ∨ lc.buffer.dropWhile isLeading = ['c', 'd']) :=
    fun h => hcd (h.imp (take_three_iff _).mp id)
  simp only [enter, if_neg hp, if_neg hne, if_neg hcd', if_neg hex, enterGeneric]
  by_cases hl : H.vfs_current_is_local run.world = false
  · simp only [if_pos hl]
    exact ⟨_, rfl, rfl, rfl, rfl, Or.inl rfl⟩
  · have hbusy := href.resolve_left hl
    simp only [if_neg hl, if_pos hbusy]
    exact ⟨_, rfl, rfl, rfl, rfl, Or.inr rfl⟩

theorem enter_refused_witness :
    exampleHostRemote.command_prompt = true ∧
    exampleHostRemote.vfs_current_is_local exampleRun.world = false ∧
    ∃ res, enter exampleHostRemote exampleCollab ⟨[' ', 'l', 's'], 0⟩ exampleRun = some res ∧
      res.ret = cb_ret_t.MSG_NOT_HANDLED ∧ res.input = ⟨[' ', 'l', 's'], 0⟩ ∧
      res.run.world = exampleRun.world ∧
      (res.run.calls = exampleRun.calls ++ [Call.message MSG_NON_LOCAL]
        ∨ res.run.calls = exampleRun.calls ++ [Call.message MSG_SHELL_BUSY]) :=
  ⟨rfl, rfl, enter_refused exampleHostRemote exampleCollab ⟨[' ', 'l', 's'], 0⟩ exampleRun rfl
    (by decide) (by decide) (by decide) (Or.inl rfl)⟩

/-- C15, counterexample: with the command prompt switched off, `enter` on the
line `exit` leaves at line 189: the text stays, `quiet_quit_cmd` is not
called, and the result is `MSG_HANDLED`. -/
theorem enter_exit_needs_prompt :
    ['e', 'x', 'i', 't'].dropWhile isLeading = ['e', 'x', 'i', 't'] ∧
    (exampleHostNoPrompt.quiet_quit_cmd exampleRun.world).1 = false ∧
    (enter exampleHostNoPrompt exampleCollab ⟨['e', 'x', 'i', 't'], 0⟩ exampleRun).map
      (fun r => (r.ret, r.input, r.run))
      = some (cb_ret_t.MSG_HANDLED, ⟨['e', 'x', 'i', 't'], 0⟩, exampleRun) := by
  decide

/-- C15 as amended: with the command prompt shown and `exit` left after the
leading white space, `enter` sets the input line to the empty text and calls
`quiet_quit_cmd`, and these are its only calls; it returns `MSG_NOT_HANDLED`
when the answer is no and `MSG_HANDLED` when it is yes. -/
theorem enter_exit {σ : Type} (H : Host σ) (X : Collab σ) (lc : WInput) (run : Run σ)
    (hprompt : H.command_prompt = true)
    (hex : lc.buffer.dropWhile isLeading = ['e', 'x', 'i', 't']) :
    ∃ res, enter H X lc run = some res ∧
      res.input = input_assign_text lc [] ∧ res.input.buffer = [] ∧
      res.run.calls = run.calls ++ [Call.input_assign_text [], Call.quiet_quit_cmd] ∧
      res.run.world = (H.quiet_quit_cmd run.world).2 ∧
      ((H.quiet_quit_cmd run.world).1 = false → res.ret = cb_ret_t.MSG_NOT_HANDLED) ∧
      ((H.quiet_quit_cmd run.world).1 = true → res.ret = cb_ret_t.MSG_HANDLED) := by
  have hp : ¬ (H.command_prompt = false) := by simp [hprompt]
  have hne : lc.buffer.dropWhile isLeading ≠ [] := by rw [hex]; simp
  have hcd : ¬ ((lc.buffer.dropWhile isLeading).take 3 = ['c', 'd', ' ']
      ∨ lc.buffer.dropWhile isLeading = ['c', 'd']) := by
    rw [hex]; decide
  simp only [enter, if_neg hp, if_neg hne, if_neg hcd, if_pos hex]
  refine ⟨_, rfl, rfl, rfl, ?_, rfl, ?_, ?_⟩
  · simp [askQuit, logCall]
  · intro h
    simp [askQuit, logCall, h]
  · intro h
    simp [askQuit, logCall, h]

theorem enter_exit_witness :
    exampleHost.command_prompt = true ∧
    ([' ', 'e', 'x', 'i', 't'] : List Char).dropWhile isLeading = ['e', 'x', 'i', 't'] ∧
    ∃ res, enter exampleHost exampleCollab ⟨[' ', 'e', 'x', 'i', 't'], 0⟩ exampleRun = some res ∧
      res.input = input_assign_text ⟨[' ', 'e', 'x', 'i', 't'], 0⟩ [] ∧ res.input.buffer = [] ∧
      res.run.calls = exampleRun.calls ++ [Call.input_assign_text [], Call.quiet_quit_cmd] ∧
      res.run.world = (exampleHost.quiet_quit_cmd exampleRun.world).2 ∧
      ((exampleHost.quiet_quit_cmd exampleRun.world).1 = false →
        res.ret = cb_ret_t.MSG_NOT_HANDLED) ∧
      ((exampleHost.quiet_quit_cmd exampleRun.world).1 = true →
        res.ret = cb_ret_t.MSG_HANDLED) :=
  ⟨rfl, by decide, enter_exit exampleHost exampleCollab ⟨[' ', 'e', 'x', 'i', 't'], 0⟩ exampleRun
    rfl (by decide)⟩

/-! ## Spacing around `cd` and its operand -/

theorem isBlank_isTrailing (c : Char) (h : isBlank c = true) : isTrailing c = true := by
  simp only [isBlank, isTrailing, decide_eq_true_eq] at h ⊢
  rcases h with h | h
  · exact Or.inl h
  · exact Or.inr (Or.inl h)

theorem cdCmd_spaced (M o T : List Char) (hM : ∀ c ∈ M, isBlank c = true)
    (hT : ∀ c ∈ T, isTrailing c = true) (ho : ∀ c ∈ o.getLast?, isTrailing c = false) :
    cdCmd (['c', 'd', ' '] ++ M ++ o ++ T)
      = if o = [] then ['c', 'd', ' '] else ['c', 'd', ' '] ++ M ++ o := by
  by_cases h0 : o = []
  · subst h0
    have e : ['c', 'd', ' '] ++ M ++ [] ++ T = ['c', 'd'] ++ (' ' :: (M ++ T)) := by simp
    have hall : ∀ c ∈ ' ' :: (M ++ T), isTrailing c = true := by
      intro c hc
      simp only [List.mem_cons, List.mem_append] at hc
      rcases hc with rfl | h | h
      · decide
      · exact isBlank_isTrailing c (hM c h)
      · exact hT c h
    rw [e, cdCmd_bare _ hall]
    simp
  · obtain ⟨o', c, rfl⟩ : ∃ o' c, o = o' ++ [c] :=
      ⟨o.dropLast, o.getLast h0, (List.dropLast_append_getLast h0).symm⟩
    have hc : isTrailing c = false := ho c (by simp)
    have htrim : (['c', 'd', ' '] ++ M ++ (o' ++ [c])).rdropWhile isTrailing
        = ['c', 'd', ' '] ++ M ++ (o' ++ [c]) := by
      have e : ['c', 'd', ' '] ++ M ++ (o' ++ [c]) = (['c', 'd', ' '] ++ M ++ o') ++ [c] := by
        simp
      rw [e, List.rdropWhile_concat_neg]
      simp [hc]
    simp only [cdCmd, rdropWhile_append_trailing _ T hT, htrim, if_neg h0]
    simp [charAt, NUL]

theorem cdOperand_spaced (M o T : List Char) (hM : ∀ c ∈ M, isBlank c = true)
    (hT : ∀ c ∈ T, isTrailing c = true) (ho1 : ∀ c ∈ o.head?, isBlank c = false)
    (ho2 : ∀ c ∈ o.getLast?, isTrailing c = false) :
    cdOperand (['c', 'd', ' '] ++ M ++ o ++ T) = o := by
  rw [cdOperand, cdCmd_spaced M o T hM hT ho2]
  by_cases h0 : o = []
  · subst h0; simp
  · simp only [if_neg h0]
    have : (['c', 'd', ' '] ++ M ++ o).drop 3 = M ++ o := by simp
    rw [this, dropWhile_append_all isBlank M o hM]
    cases o with
    | nil => exact absurd rfl h0
    | cons x xs =>
      have hx : isBlank x = false := ho1 x (by simp)
      simp [List.dropWhile, hx]

theorem charAt_cdCmd_spaced (M o T : List Char) (hM : ∀ c ∈ M, isBlank c = true)
    (hT : ∀ c ∈ T, isTrailing c = true) (ho : ∀ c ∈ o.getLast?, isTrailing c = false) :
    charAt (cdCmd (['c', 'd', ' '] ++ M ++ o ++ T)) 0 = 'c' := by
  rw [cdCmd_spaced M o T hM hT ho]
  split <;> simp [charAt]

theorem do_cd_command_congr {σ : Type} (X : Collab σ) (tree : Bool) (a b : List Char)
    (run : Run σ) (hlen : a.length < 2 ↔ b.length < 2)
    (h0 : charAt (cdCmd a) 0 = charAt (cdCmd b) 0) (hop : cdOperand a = cdOperand b) :
    do_cd_command X tree a run = do_cd_command X tree b run := by
  simp only [do_cd_command, h0, hop]
  by_cases hb : b.length < 2
  · simp [hb, hlen.mpr hb]
  · have ha : ¬ a.length < 2 := fun h => hb (hlen.mp h)
    simp only [if_neg ha, if_neg hb]

/-- C11: leading white space, blanks between `cd` and the operand, and
trailing white space change nothing: `do_cd_command` and `enter` come to the
operand `o` and do what they do for `cd o`, and in panel view `examine_cd` is
called with exactly `o`. -/
theorem cd_spacing_irrelevant {σ : Type} (H : Host σ) (X : Collab σ) (L M o T : List Char)
    (hL : ∀ c ∈ L, isLeading c = true) (hM : ∀ c ∈ M, isBlank c = true)
    (hT : ∀ c ∈ T, isTrailing c = true) (ho1 : ∀ c ∈ o.head?, isBlank c = false)
    (ho2 : ∀ c ∈ o.getLast?, isTrailing c = false) :
    cdOperand (['c', 'd', ' '] ++ M ++ o ++ T) = o ∧
    (∀ (tree : Bool) (run : Run σ),
      do_cd_command X tree (['c', 'd', ' '] ++ M ++ o ++ T) run
        = do_cd_command X tree (['c', 'd', ' '] ++ o) run) ∧
    (∀ run : Run σ,
      do_cd_command X false (['c', 'd', ' '] ++ M ++ o ++ T) run
        = (examine_cd X o run).map (fun res =>
            if res.1 = false then
              { res.2 with calls := res.2.calls ++ [Call.message (X.strip_password o)] }
            else res.2)) ∧
    (∀ (run : Run σ) (vs : Int),
      (enter H X ⟨L ++ (['c', 'd', ' '] ++ M ++ o ++ T), vs⟩ run).map
          (fun r => (r.ret, r.input.vi_skip, r.run, r.path))
        = (enter H X ⟨['c', 'd', ' '] ++ o, vs⟩ run).map
          (fun r => (r.ret, r.input.vi_skip, r.run, r.path))) ∧
    (H.command_prompt = true → ∀ (run : Run σ) (vs : Int),
      ∃ res, enter H X ⟨L ++ (['c', 'd', ' '] ++ M ++ o ++ T), vs⟩ run = some res ∧
        enter H X ⟨['c', 'd', ' '] ++ o, vs⟩ run = some res ∧ res.input.buffer = []) := by
  have hop := cdOperand_spaced M o T hM hT ho1 ho2
  have hop0 : cdOperand (['c', 'd', ' '] ++ o) = o := by
    have := cdOperand_spaced [] o [] (by simp) (by simp) ho1 ho2
    simpa using this
  have hc := charAt_cdCmd_spaced M o T hM hT ho2
  have hc0 : charAt (cdCmd (['c', 'd', ' '] ++ o)) 0 = 'c' := by
    have := charAt_cdCmd_spaced [] o [] (by simp) (by simp) ho2
    simpa using this
  have hcongr : ∀ (tree : Bool) (run : Run σ),
      do_cd_command X tree (['c', 'd', ' '] ++ M ++ o ++ T) run
        = do_cd_command X tree (['c', 'd', ' '] ++ o) run := by
    intro tree run
    apply do_cd_command_congr
    · simp only [List.length_append, List.length_cons, List.length_nil]
      omega
    · rw [hc, hc0]
    · rw [hop, hop0]
  have hdrop : (L ++ (['c', 'd', ' '] ++ M ++ o ++ T)).dropWhile isLeading
      = ['c', 'd', ' '] ++ M ++ o ++ T := by
    rw [dropWhile_append_all isLeading L _ hL]
    simp [List.dropWhile, isLeading]
  have hdrop0 : (['c', 'd', ' '] ++ o).dropWhile isLeading = ['c', 'd', ' '] ++ o := by
    simp [List.dropWhile, isLeading]
  have hne : ['c', 'd', ' '] ++ M ++ o ++ T ≠ [] := by simp
  have hne0 : ['c', 'd', ' '] ++ o ≠ [] := by simp
  have hcd : (['c', 'd', ' '] ++ M ++ o ++ T).take 3 = ['c', 'd', ' ']
      ∨ ['c', 'd', ' '] ++ M ++ o ++ T = ['c', 'd'] := Or.inl (by simp)
  have hcd0 : (['c', 'd', ' '] ++ o).take 3 = ['c', 'd', ' ']
      ∨ ['c', 'd', ' '] ++ o = ['c', 'd'] := Or.inl (by simp)
  refine ⟨hop, hcongr, ?_, ?_, ?_⟩
  · intro run
    have hl : ¬ (['c', 'd', ' '] ++ M ++ o ++ T).length < 2 := by simp
    simp only [do_cd_command, if_neg hl, hop, Bool.false_eq_true, if_false]
    cases examine_cd X o run with
    | none => rfl
    | some res =>
      obtain ⟨r, run1⟩ := res
      simp only [Option.map_some']
      split <;> rfl
  · intro run vs
    by_cases hp : H.command_prompt = false
    · simp [enter, hp]
    · simp only [enter, if_neg hp, hdrop, hdrop0, if_neg hne, if_neg hne0, if_pos hcd,
        if_pos hcd0, hcongr]
      cases do_cd_command X (H.view_tree run.world) (['c', 'd', ' '] ++ o)
        (logCall Call.do_cd_command run) <;> rfl
  · intro hprompt run vs
    have hp : ¬ (H.command_prompt = false) := by simp [hprompt]
    obtain ⟨run1, hrun1⟩ := do_cd_command_total X (H.view_tree run.world)
      (['c', 'd', ' '] ++ o) (logCall Call.do_cd_command run) (by simp)
    simp only [enter, if_neg hp, hdrop, hdrop0, if_neg hne, if_neg hne0, if_pos hcd,
      if_pos hcd0, hcongr, hrun1]
    exact ⟨_, rfl, rfl, rfl⟩

theorem cd_spacing_irrelevant_witness :
    (∀ c ∈ [' ', ' '], isLeading c = true) ∧ (∀ c ∈ [' ', ' '], isBlank c = true) ∧
    (∀ c ∈ [' ', ' '], isTrailing c = true) ∧
    (∀ c ∈ ['/', 't', 'm', 'p'].head?, isBlank c = false) ∧
    (∀ c ∈ ['/', 't', 'm', 'p'].getLast?, isTrailing c = false) ∧
    cdOperand (['c', 'd', ' '] ++ [' ', ' '] ++ ['/', 't', 'm', 'p'] ++ [' ', ' '])
      = ['/', 't', 'm', 'p'] ∧
    (enter exampleHost exampleCollab
        ⟨[' ', ' '] ++ (['c', 'd', ' '] ++ [' ', ' '] ++ ['/', 't', 'm', 'p'] ++ [' ', ' ']), 0⟩
        exampleRun).map (fun r => (r.ret, r.input.vi_skip, r.run, r.path))
      = (enter exampleHost exampleCollab ⟨['c', 'd', ' '] ++ ['/', 't', 'm', 'p'], 0⟩
        exampleRun).map (fun r => (r.ret, r.input.vi_skip, r.run, r.path)) :=
  have h := cd_spacing_irrelevant exampleHost exampleCollab [' ', ' '] [' ', ' ']
    ['/', 't', 'm', 'p'] [' ', ' '] (by decide) (by decide) (by decide) (by decide) (by decide)
  ⟨by decide, by decide, by decide, by decide, by decide, h.1, h.2.2.2.1 exampleRun 0⟩

/-! ## `command_callback` while `vi_skip` is set -/

theorem enterGeneric_vi_skip {σ : Type} (H : Host σ) (lc : WInput) (cmd : List Char)
    (run : Run σ) :
    ∃ res, enterGeneric H lc cmd run = some res ∧ res.input.vi_skip = lc.vi_skip := by
  obtain ⟨st, hst, _⟩ := fmtLoop_ref H cmd cmd.length (fmtInit cmd run)
    (by simp [fmtInit]) (by simp [fmtInit])
  simp only [enterGeneric, hst]
  split
  · exact ⟨_, rfl, rfl⟩
  · split <;> exact ⟨_, rfl, rfl⟩

theorem enter_total {σ : Type} (H : Host σ) (X : Collab σ) (lc : WInput) (run : Run σ) :
    ∃ res, enter H X lc run = some res ∧ res.input.vi_skip = lc.vi_skip := by
  simp only [enter]
  split
  · exact ⟨_, rfl, rfl⟩
  · split
    · exact ⟨_, rfl, rfl⟩
    · split
      · next hcd =>
        have hlen : 2 ≤ (lc.buffer.dropWhile isLeading).length := by
          rcases hcd with h | h
          · have := congrArg List.length h
            simp only [List.length_take, List.length_cons, List.length_nil] at this
            omega
          · rw [h]; simp
        obtain ⟨run1, hrun1⟩ := do_cd_command_total X (H.view_tree run.world)
          (lc.buffer.dropWhile isLeading) (logCall Call.do_cd_command run) hlen
        rw [hrun1]
        exact ⟨_, rfl, rfl⟩
      · split
        · exact ⟨_, rfl, rfl⟩
        · exact enterGeneric_vi_skip H lc _ run

/-- C20: while `vi_skip` is not zero a key message is answered with
`MSG_NOT_HANDLED` and nothing is called; only `:` changes the flag, to zero,
and the text stays as it is. With the flag at zero the code of the callback
sets it only for the newline key with `vi_style` on. -/
theorem command_callback_vi_skip {σ : Type} (H : Host σ) (X : Collab σ) (cmd : WInput)
    (run : Run σ) (hskip : cmd.vi_skip ≠ 0) :
    (∀ parm : Int, command_callback H X widget_msg_t.WIDGET_KEY parm cmd run
      = some (cb_ret_t.MSG_NOT_HANDLED,
          (if parm = keyCode ':' then { cmd with vi_skip := 0 } else cmd), run)) ∧
    (∀ keys : List Int, (∀ k ∈ keys, k ≠ keyCode ':') →
      feedKeys H X keys cmd run
        = some (List.replicate keys.length cb_ret_t.MSG_NOT_HANDLED, cmd, run)) ∧
    (∀ (cmd0 : WInput) (parm : Int), cmd0.vi_skip = 0 → parm ≠ keyCode '\n' →
      command_callback H X widget_msg_t.WIDGET_KEY parm cmd0 run
        = some (callInput H widget_msg_t.WIDGET_KEY parm cmd0 run)) ∧
    (∀ cmd0 : WInput, cmd0.vi_skip = 0 → H.vi_style = false →
      ∃ out, command_callback H X widget_msg_t.WIDGET_KEY (keyCode '\n') cmd0 run = some out ∧
        out.2.1.vi_skip = 0) ∧
    (∀ cmd0 : WInput, cmd0.vi_skip = 0 → H.vi_style = true →
      ∃ out, command_callback H X widget_msg_t.WIDGET_KEY (keyCode '\n') cmd0 run = some out ∧
        out.2.1.vi_skip = 1) ∧
    (∀ (cmd0 : WInput) (parm : Int),
      command_callback H X widget_msg_t.WIDGET_FOCUS parm cmd0 run
        = some (cb_ret_t.MSG_NOT_HANDLED, cmd0, run)) ∧
    (∀ (cmd0 : WInput) (parm : Int) (code : Nat),
      command_callback H X (widget_msg_t.WIDGET_OTHER code) parm cmd0 run
        = some (callInput H (widget_msg_t.WIDGET_OTHER code) parm cmd0 run)) ∧
    (∀ fresh : WInput, H.vi_style = true → (command_new H fresh).vi_skip = 1) := by
  have h1 : ∀ (c : WInput) (r : Run σ), c.vi_skip ≠ 0 → ∀ parm : Int,
      command_callback H X widget_msg_t.WIDGET_KEY parm c r
        = some (cb_ret_t.MSG_NOT_HANDLED,
            (if parm = keyCode ':' then { c with vi_skip := 0 } else c), r) := by
    intro c r hc parm
    simp only [command_callback, if_pos hc]
  refine ⟨h1 cmd run hskip, ?_, ?_, ?_, ?_, ?_, ?_, ?_⟩
  · intro keys
    induction keys with
    | nil => intro _; rfl
    | cons k ks ih =>
      intro hk
      have hk1 : k ≠ keyCode ':' := hk k (by simp)
      have hks : ∀ k' ∈ ks, k' ≠ keyCode ':' := fun k' h => hk k' (List.mem_cons_of_mem _ h)
      simp only [feedKeys, h1 cmd run hskip k, if_neg hk1, ih hks]
      simp [List.replicate_succ]
  · intro cmd0 parm h0 hparm
    have h0' : ¬ (cmd0.vi_skip ≠ 0) := by simp [h0]
    simp only [command_callback, if_neg h0', if_neg hparm]
  · intro cmd0 h0 hvi
    have h0' : ¬ (cmd0.vi_skip ≠ 0) := by simp [h0]
    obtain ⟨res, hres, hvs⟩ := enter_total H X cmd0 (logCall Call.enter run)
    refine ⟨(res.ret, res.input, res.run), ?_, by simpa [h0] using hvs⟩
    simp [command_callback, h0, hvi, hres]
  · intro cmd0 h0 hvi
    obtain ⟨res, hres, hvs⟩ := enter_total H X { cmd0 with vi_skip := 1 }
      (logCall Call.enter run)
    refine ⟨(res.ret, res.input, res.run), ?_, by simpa using hvs⟩
    simp [command_callback, h0, hvi, hres]
  · intro cmd0 parm
    rfl
  · intro cmd0 parm code
    rfl
  · intro fresh hvi
    simp [command_new, hvi]

theorem command_callback_vi_skip_witness :
    (⟨['l', 's'], 1⟩ : WInput).vi_skip ≠ 0 ∧
    command_callback exampleHost exampleCollab widget_msg_t.WIDGET_KEY (keyCode '\n')
        ⟨['l', 's'], 1⟩ exampleRun
      = some (cb_ret_t.MSG_NOT_HANDLED, ⟨['l', 's'], 1⟩, exampleRun) ∧
    command_callback exampleHost exampleCollab widget_msg_t.WIDGET_KEY (keyCode ':')
        ⟨['l', 's'], 1⟩ exampleRun
      = some (cb_ret_t.MSG_NOT_HANDLED, ⟨['l', 's'], 0⟩, exampleRun) ∧
    feedKeys exampleHost exampleCollab [keyCode 'a', keyCode '\n', keyCode 'b']
        ⟨['l', 's'], 1⟩ exampleRun
      = some (List.replicate 3 cb_ret_t.MSG_NOT_HANDLED, ⟨['l', 's'], 1⟩, exampleRun) :=
  have h := command_callback_vi_skip exampleHost exampleCollab ⟨['l', 's'], 1⟩ exampleRun
    (by decide)
  ⟨by decide, (h.1 (keyCode '\n')).trans (by decide), (h.1 (keyCode ':')).trans (by decide),
   h.2.1 [keyCode 'a', keyCode '\n', keyCode 'b'] (by decide)⟩

theorem examine_cd_first_attempt_witness :
    (examine_cd exampleCollabTilde ['~', '/', '$', 'V'] exampleRun).map
        (fun res => (res.1, res.2.calls))
      = some (true, [Call.getenv ['V'], Call.getenv ['V'],
          Call.do_cd ['/', 'h', '/', '~', '/', '~']]) ∧
    ∃ q r run' more,
      varsubst exampleCollabTilde.MC_MAXPATHLEN exampleCollabTilde.getenv
        (exampleCollabTilde.tilde_expand
          (exampleCollabTilde.strutils_shell_unescape ['~', '/', '$', 'V'])) = some q ∧
      examine_cd exampleCollabTilde ['~', '/', '$', 'V'] exampleRun = some (r, run') ∧
      chdirCalls run'.calls = chdirCalls exampleRun.calls ++ q :: more :=
  ⟨by decide, examine_cd_first_attempt exampleCollabTilde ['~', '/', '$', 'V'] exampleRun⟩

end Command
